import Mathlib

set_option maxRecDepth 8000

/-
Verification of the audio-analysis core (FFT, framer, chroma / key estimator,
spectral-flux onset detector, autocorrelation tempo estimator) as a shallow
embedding over exact real arithmetic.  Machine floats are modelled by ℝ; the
in-place Float32Array pair of the source fft is modelled as a pair of total
functions ℕ → ℝ updated at the indices the source writes.
-/

namespace SampleAnalysis

open scoped Classical

/-- JavaScript Math.round: round half up, as an integer floor of x + 1/2. -/
noncomputable def jsRound (x : ℝ) : ℤ := ⌊x + 1 / 2⌋

/-- Math.round(n / 2) for an integer n: round half up equals ⌊(n+1)/2⌋,
written with the floor division of ℤ. -/
def roundHalfInt (n : ℤ) : ℤ := (n + 1) / 2

/-- Math.max(...l) over a list (the call sites only apply it to nonempty
lists of nonnegative values; the [] case value 0 is unreachable there). -/
def jsMaxList (l : List ℝ) : ℝ :=
match l with
| [] => 0
| x :: xs => xs.foldl max x

/-- The fft working state: the real and imaginary arrays, index-addressed. -/
abbrev FState := (ℕ → ℝ) × (ℕ → ℝ)

/-- Simultaneous swap of entries i and j of both arrays
(`[real[i], real[j]] = [real[j], real[i]]` and likewise for imag). -/
def swapAt (i j : ℕ) (st : FState) : FState :=
(Function.update (Function.update st.1 i (st.1 j)) j (st.1 i),
 Function.update (Function.update st.2 i (st.2 j)) j (st.2 i))

/-- The inner `while (m >= 1 && j >= m) { j -= m; m >>= 1 }` of the
bit-reversal loop, followed by the trailing `j += m`.  Returns the new j. -/
def brAdjust (j m : ℕ) : ℕ :=
if h : 1 ≤ m ∧ m ≤ j then brAdjust (j - m) (m / 2) else j + m
termination_by m
decreasing_by exact Nat.div_lt_self (by omega) (by omega)

/-- One iteration of the bit-reversal loop: conditional swap at (i, j), then
recompute j from a fresh m = n >> 1. -/
def brStep (n : ℕ) (p : FState × ℕ) (i : ℕ) : FState × ℕ :=
(if i < p.2 then swapAt i p.2 p.1 else p.1, brAdjust p.2 (n / 2))

/-- The bit-reversal permutation pass of fft. -/
def bitReverse (n : ℕ) (st : FState) : FState :=
((List.range n).foldl (brStep n) (st, 0)).1

/-- One butterfly of the Cooley-Tukey inner loop at block start i, offset j,
carrying the running twiddle factor cur; w is the per-stage twiddle step. -/
noncomputable def bfly (i halfLen : ℕ) (w : ℝ × ℝ) (p : FState × (ℝ × ℝ)) (j : ℕ) :
    FState × (ℝ × ℝ) :=
let st := p.1
let cur := p.2
let a := i + j
let b := i + j + halfLen
let uR := st.1 a
let uI := st.2 a
let tR := cur.1 * st.1 b - cur.2 * st.2 b
let tI := cur.1 * st.2 b + cur.2 * st.1 b
((Function.update (Function.update st.1 a (uR + tR)) b (uR - tR),
  Function.update (Function.update st.2 a (uI + tI)) b (uI - tI)),
 (cur.1 * w.1 - cur.2 * w.2, cur.1 * w.2 + cur.2 * w.1))

/-- The inner `for (j = 0; j < halfLen; j++)` butterfly loop of one block. -/
noncomputable def butterflies (i halfLen : ℕ) (w : ℝ × ℝ) (st : FState) : FState :=
((List.range halfLen).foldl (bfly i halfLen w) (st, (1, 0))).1

/-- One combination stage (`for (i = 0; i < n; i += len)`) of the fft for a
given len; the call sites use power-of-two n, so the blocks are the n/len
starts 0, len, 2·len, …  -/
noncomputable def stageFn (n len : ℕ) (st : FState) : FState :=
let halfLen := len / 2
let w : ℝ × ℝ := (Real.cos ((-2 * Real.pi) / (len : ℝ)), Real.sin ((-2 * Real.pi) / (len : ℝ)))
(List.range (n / len)).foldl (fun s b => butterflies (b * len) halfLen w s) st

/-- The stage loop `for (len = 2; len <= n; len <<= 1)`: len runs over the
powers 2^1 … 2^(log2 n). -/
noncomputable def fftStages (n : ℕ) (st : FState) : FState :=
((List.range (Nat.log2 n)).map (fun s => 2 ^ (s + 1))).foldl
  (fun st len => stageFn n len st) st

/-- In-place iterative radix-2 Cooley-Tukey FFT (source function `fft`):
no-op for n ≤ 1, otherwise bit-reversal permutation followed by the
combination stages. -/
noncomputable def fft (n : ℕ) (st : FState) : FState :=
if n ≤ 1 then st else fftStages n (bitReverse n st)

/-- The Hann window coefficient `0.5 * (1 - cos(2·π·i / (F - 1)))`. -/
noncomputable def hannWindow (F i : ℕ) : ℝ :=
1 / 2 * (1 - Real.cos (2 * Real.pi * (i : ℝ) / ((F : ℝ) - 1)))

/-- The initial fft state built by getMagnitudeSpectrum: Hann-windowed
samples in the real array (`(samples[i] || 0) * window`, i.e. 0 past the end
of the list), zero imaginary array. -/
noncomputable def initState (samples : List ℝ) (F : ℕ) : FState :=
(fun k => if k < F then samples.getD k 0 * hannWindow F k else 0, fun _ => 0)

/-- Source function `getMagnitudeSpectrum`: window, transform, and return
the first F/2 magnitudes sqrt(re²+im²). -/
noncomputable def getMagnitudeSpectrum (samples : List ℝ) (F : ℕ) : List ℝ :=
let st := fft F (initState samples F)
(List.range (F / 2)).map (fun k => Real.sqrt (st.1 k * st.1 k + st.2 k * st.2 k))

/-- Start offsets of the analysis frames: the loop
`for (start = 0; start + F < L; start += H)` (note the strict <).
The count (L - F + (H-1)) / H is the number of i with i·H + F < L. -/
def frameStarts (L F H : ℕ) : List ℕ :=
(List.range ((L - F + (H - 1)) / H)).map (· * H)

/-- The analysis frames themselves: `data.slice(start, start + F)`. -/
def frames (data : List ℝ) (F H : ℕ) : List (List ℝ) :=
(frameStarts data.length F H).map (fun s => (data.drop s).take F)

/-- Source function `pearsonCorrelation`; a zero denominator yields 0. -/
noncomputable def pearsonCorrelation (a b : List ℝ) : ℝ :=
let n := a.length
let sumA := ∑ i ∈ Finset.range n, a.getD i 0
let sumB := ∑ i ∈ Finset.range n, b.getD i 0
let sumAB := ∑ i ∈ Finset.range n, a.getD i 0 * b.getD i 0
let sumA2 := ∑ i ∈ Finset.range n, a.getD i 0 * a.getD i 0
let sumB2 := ∑ i ∈ Finset.range n, b.getD i 0 * b.getD i 0
let num := (n : ℝ) * sumAB - sumA * sumB
let den := Real.sqrt (((n : ℝ) * sumA2 - sumA * sumA) * ((n : ℝ) * sumB2 - sumB * sumB))
if den = 0 then 0 else num / den

/-- Krumhansl-Kessler major key profile. -/
def MAJOR_PROFILE : List ℝ :=
[6.35, 2.23, 3.48, 2.33, 4.38, 4.09, 2.52, 5.19, 2.39, 3.66, 2.29, 2.88]

/-- Krumhansl-Kessler minor key profile. -/
def MINOR_PROFILE : List ℝ :=
[6.33, 2.68, 3.52, 5.38, 2.60, 3.53, 2.54, 4.75, 3.98, 2.69, 3.34, 3.17]

/-- Pitch class names in fixed order; sharps are written by appending the
sharp sign so the list matches the source's NOTE_NAMES array entry by entry. -/
def KEY_NAMES : List String :=
["C", "C" ++ "#", "D", "D" ++ "#", "E", "F",
 "F" ++ "#", "G", "G" ++ "#", "A", "A" ++ "#", "B"]

/-- Key mode. -/
inductive Mode where
| major : Mode
| minor : Mode
deriving DecidableEq

/-- Intermediate (key, mode, correlation) tuple built by detectKey. -/
structure RawCandidate where
key : String
mode : Mode
correlation : ℝ

instance : Inhabited RawCandidate := ⟨⟨"", Mode.major, 0⟩⟩

/-- Final key candidate with a confidence score. -/
structure KeyCandidate where
key : String
mode : Mode
confidence : ℝ

/-- Tempo candidate from one autocorrelation peak. -/
structure TempoPeak where
lag : ℤ
value : ℝ
bpm : ℤ

instance : Inhabited TempoPeak := ⟨⟨0, 0, 0⟩⟩

/-- BPM analysis result. -/
structure BPMResult where
bpm : ℤ
confidence : ℝ
alternatives : List ℤ

/-- Full analysis result. -/
structure AnalysisResult where
bpm : ℤ
bpmConfidence : ℝ
bpmAlternatives : List ℤ
keyCandidates : List KeyCandidate

/-- Frame size of the chroma / key pass. -/
def keyFftSize : ℕ := 8192

/-- Hop size of the chroma / key pass. -/
def keyHopSize : ℕ := 4096

/-- Pitch class of one spectrum bin: freq = bin·sr/F, fractional MIDI note
`12·log2(freq/440) + 69`, Math.round, then `((x % 12) % 12 + 12) % 12` with
the sign-preserving JS remainder (Int.tmod). -/
noncomputable def binPitch (sr : ℝ) (F bin : ℕ) : ℤ :=
let freq := (bin : ℝ) * sr / (F : ℝ)
let midiNote := 12 * Real.logb 2 (freq / 440) + 69
let pitchClass := Int.tmod (jsRound midiNote) 12
Int.tmod (Int.tmod pitchClass 12 + 12) 12

/-- The 60 Hz ≤ freq ≤ 2000 Hz analysis-band test for a bin
(the source skips the bin when freq < 60 or freq > 2000). -/
def inBand (sr : ℝ) (F bin : ℕ) : Prop :=
60 ≤ (bin : ℝ) * sr / (F : ℝ) ∧ (bin : ℝ) * sr / (F : ℝ) ≤ 2000

/-- Squared-magnitude chroma contribution of one frame to pitch class p:
bins 1 … F/2 - 1 whose frequency lies in the analysis band and whose pitch
class is p contribute magnitude². -/
noncomputable def frameChroma (seg : List ℝ) (sr : ℝ) (p : ℤ) : ℝ :=
let mag := getMagnitudeSpectrum seg keyFftSize
∑ bin ∈ Finset.Ico 1 mag.length,
  if inBand sr keyFftSize bin ∧ binPitch sr keyFftSize bin = p
  then mag.getD bin 0 * mag.getD bin 0 else 0

/-- The chroma accumulator after all frames (pre-normalization). -/
noncomputable def rawChroma (data : List ℝ) (sr : ℝ) (p : ℤ) : ℝ :=
((frames data keyFftSize keyHopSize).map (fun seg => frameChroma seg sr p)).sum

/-- `Math.max(...chroma)` over the 12 accumulated chroma bins. -/
noncomputable def maxChroma (data : List ℝ) (sr : ℝ) : ℝ :=
jsMaxList ((List.range 12).map (fun p : ℕ => rawChroma data sr (p : ℤ)))

/-- The normalized chroma vector: divided by the max when the max is
positive, left unchanged otherwise. -/
noncomputable def chromaVec (data : List ℝ) (sr : ℝ) (p : ℤ) : ℝ :=
if 0 < maxChroma data sr then rawChroma data sr p / maxChroma data sr
else rawChroma data sr p

/-- `shiftedChroma[i] = chroma[(i + shift) % 12]` as a 12-element list. -/
noncomputable def shiftedChroma (data : List ℝ) (sr : ℝ) (shift : ℕ) : List ℝ :=
(List.range 12).map (fun i => chromaVec data sr (((i + shift) % 12 : ℕ) : ℤ))

/-- The 24 (key, mode, correlation) candidates, in source push order:
for each shift 0 … 11 the major candidate then the minor candidate. -/
noncomputable def keyCandidatesAll (data : List ℝ) (sr : ℝ) : List RawCandidate :=
(List.range 12).flatMap (fun shift =>
  [⟨KEY_NAMES.getD shift "", Mode.major,
    pearsonCorrelation MAJOR_PROFILE (shiftedChroma data sr shift)⟩,
   ⟨KEY_NAMES.getD shift "", Mode.minor,
    pearsonCorrelation MINOR_PROFILE (shiftedChroma data sr shift)⟩])

/-- The stable descending-by-correlation order of the source comparator
`(a, b) => b.correlation - a.correlation`. -/
def candOrder (a b : RawCandidate) : Prop := b.correlation ≤ a.correlation

noncomputable instance : DecidableRel candOrder := fun a b => Real.decidableLE _ _

instance : IsRefl RawCandidate candOrder := ⟨fun a => le_refl a.correlation⟩

instance : IsTotal RawCandidate candOrder := ⟨fun a b => le_total b.correlation a.correlation⟩

instance : IsTrans RawCandidate candOrder := ⟨fun a b c hab hbc => le_trans hbc hab⟩

/-- The 24 candidates sorted by correlation descending (stable sort). -/
noncomputable def rankedCandidates (data : List ℝ) (sr : ℝ) : List RawCandidate :=
List.insertionSort candOrder (keyCandidatesAll data sr)

/-- The retained `candidates.slice(0, 6)`. -/
noncomputable def topSix (data : List ℝ) (sr : ℝ) : List RawCandidate :=
(rankedCandidates data sr).take 6

/-- The confidence-scoring tail of detectKey (source lines building
topCandidates, maxCorr, minCorr, `range = maxCorr - minCorr || 1` and the
final map): takes the sorted candidate list, keeps the first 6, rescales. -/
noncomputable def scoreTop (l : List RawCandidate) : List KeyCandidate :=
let tops := l.take 6
let maxCorr := (tops.getD 0 default).correlation
let minCorr := (tops.getLastD default).correlation
let range := if maxCorr - minCorr = 0 then 1 else maxCorr - minCorr
tops.map (fun c => ⟨c.key, c.mode, (c.correlation - minCorr) / range⟩)

/-- Source function `detectKey`. -/
noncomputable def detectKey (data : List ℝ) (sr : ℝ) : List KeyCandidate :=
scoreTop (rankedCandidates data sr)

/-- Frame size of the onset / tempo pass. -/
def bpmFftSize : ℕ := 2048

/-- Hop size of the onset / tempo pass. -/
def bpmHopSize : ℕ := 512

/-- Half-wave rectified spectral flux between consecutive frame spectra
(`diff > 0 ? diff : 0`, summed over the current spectrum's bins); one value
per frame pair, in frame order. -/
noncomputable def spectralFlux (data : List ℝ) : List ℝ :=
let spectra := (frames data bpmFftSize bpmHopSize).map
  (fun seg => getMagnitudeSpectrum seg bpmFftSize)
(spectra.zip (spectra.drop 1)).map (fun pr =>
  ∑ k ∈ Finset.range pr.2.length,
    (if 0 < pr.2.getD k 0 - pr.1.getD k 0 then pr.2.getD k 0 - pr.1.getD k 0 else 0))

/-- In-place normalization of the flux by its max (skipped when max ≤ 0). -/
noncomputable def normalizeFlux (flux : List ℝ) : List ℝ :=
let m := jsMaxList flux
if 0 < m then flux.map (fun x => x / m) else flux

/-- framesPerSecond = sampleRate / hopSize. -/
noncomputable def bpmFps (sr : ℝ) : ℝ := sr / (bpmHopSize : ℝ)

/-- minLag = floor((60 / maxBPM) · framesPerSecond) with maxBPM = 180. -/
noncomputable def bpmMinLag (sr : ℝ) : ℤ := ⌊(60 / 180 : ℝ) * bpmFps sr⌋

/-- maxLag = floor((60 / minBPM) · framesPerSecond) with minBPM = 60. -/
noncomputable def bpmMaxLag (sr : ℝ) : ℤ := ⌊(60 / 60 : ℝ) * bpmFps sr⌋

/-- The lags visited by `for (lag = minLag; lag <= maxLag && lag < L/2; lag++)`:
the run minLag, minLag+1, … cut off at the first lag with 2·lag ≥ L. -/
noncomputable def bpmLags (L : ℕ) (sr : ℝ) : List ℤ :=
(((List.range (bpmMaxLag sr - bpmMinLag sr + 1).toNat).map
    (fun k : ℕ => bpmMinLag sr + (k : ℤ))).takeWhile (fun lag => 2 * lag < (L : ℤ)))

/-- One autocorrelation value: sum of flux[i]·flux[i+lag] over
i < L - lag, divided by (L - lag). -/
noncomputable def corrAtLag (flux : List ℝ) (lag : ℤ) : ℝ :=
(∑ i ∈ Finset.range (flux.length - lag.toNat),
  flux.getD i 0 * flux.getD (i + lag.toNat) 0) / ((flux.length : ℝ) - (lag : ℝ))

/-- The autocorrelation sequence over the visited lags. -/
noncomputable def bpmCorrelations (flux : List ℝ) (sr : ℝ) : List ℝ :=
(bpmLags flux.length sr).map (corrAtLag flux)

/-- Strict local maxima of the correlation sequence (interior indices
1 … length-2 with c[i] > c[i-1] and c[i] > c[i+1]); each yields a TempoPeak
with lag = minLag + i and bpm = round(60·fps / lag). -/
noncomputable def findPeaks (c : List ℝ) (minLag : ℤ) (fps : ℝ) : List TempoPeak :=
((List.range (c.length - 2)).map (fun k => k + 1)).filterMap (fun i =>
  if c.getD (i - 1) 0 < c.getD i 0 ∧ c.getD (i + 1) 0 < c.getD i 0 then
    some ⟨minLag + (i : ℤ), c.getD i 0,
          jsRound (60 * fps / ((minLag : ℝ) + (i : ℝ)))⟩
  else none)

/-- The peaks of the normalized flux autocorrelation of a buffer. -/
noncomputable def bpmPeaks (data : List ℝ) (sr : ℝ) : List TempoPeak :=
findPeaks (bpmCorrelations (normalizeFlux (spectralFlux data)) sr)
  (bpmMinLag sr) (bpmFps sr)

/-- The peak comparator `(a, b) => b.value - a.value` (strength descending). -/
def peakOrder (a b : TempoPeak) : Prop := b.value ≤ a.value

noncomputable instance : DecidableRel peakOrder := fun a b => Real.decidableLE _ _

/-- Single-octave fold of the primary bpm toward 80-140: halve when
bpm > 140 and the rounded half is ≥ 60; double when bpm < 80 and the double
is ≤ 180. -/
def foldPrimary (b : ℤ) : ℤ :=
if 140 < b then (if 60 ≤ roundHalfInt b then roundHalfInt b else b)
else if b < 80 then (if b * 2 ≤ 180 then b * 2 else b)
else b

/-- Single-octave fold of an alternative peak bpm: the guard tests the
unrounded half (`altBpm / 2 >= 60`, i.e. 120 ≤ altBpm) and the double
(`altBpm * 2 <= 180`). -/
def foldAlt (b : ℤ) : ℤ :=
if 140 < b ∧ 60 * 2 ≤ b then roundHalfInt b
else if b < 80 ∧ b * 2 ≤ 180 then b * 2
else b

/-- `Set.add`: append if not already present (JS Set keeps first-insertion
order and ignores re-insertions). -/
def setAdd (l : List ℤ) (x : ℤ) : List ℤ := if x ∈ l then l else l ++ [x]

/-- The alternatives block of detectBPM, given the folded primary bpm and
the raw bpms of `peaks.slice(1, 4)`: insert bpm·2 (if ≤ 200) and
round(bpm/2) (if bpm/2 ≥ 50, i.e. 100 ≤ bpm), insert each folded alt peak
differing from the primary by more than 5, delete the primary, then
`Array.from(set).slice(0, 3).sort((a, b) => a - b)` — truncate in insertion
order first, sort ascending afterwards. -/
def collectAlternatives (bpm : ℤ) (altBpms : List ℤ) : List ℤ :=
let s1 := if bpm * 2 ≤ 200 then setAdd [] (bpm * 2) else []
let s2 := if 50 * 2 ≤ bpm then setAdd s1 (roundHalfInt bpm) else s1
let s3 := altBpms.foldl (fun s p =>
  if 5 < |foldAlt p - bpm| then setAdd s (foldAlt p) else s) s2
List.insertionSort (fun a b => a ≤ b) ((s3.erase bpm).take 3)

/-- Source function `detectBPM`. -/
noncomputable def detectBPM (data : List ℝ) (sr : ℝ) : BPMResult :=
let flux := spectralFlux data
if flux.length < 100 then ⟨120, 0, []⟩
else
  let corrs := bpmCorrelations (normalizeFlux flux) sr
  let peaks := List.insertionSort peakOrder (bpmPeaks data sr)
  match peaks with
  | [] => ⟨120, 0, []⟩
  | best :: rest =>
    let maxCorr := jsMaxList corrs
    let avgCorr := corrs.sum / (corrs.length : ℝ)
    let confidence := min 1 (max 0 ((best.value - avgCorr) / (maxCorr - avgCorr + 1 / 1000)))
    let bpm := foldPrimary best.bpm
    ⟨bpm, confidence, collectAlternatives bpm ((rest.take 3).map TempoPeak.bpm)⟩

/-- The pure analysis core of `analyzeAudio` (decoding excluded): assembles
the BPM result and the key candidates. -/
noncomputable def analyzeAudio (data : List ℝ) (sr : ℝ) : AnalysisResult :=
let bpmResult := detectBPM data sr
⟨bpmResult.bpm, bpmResult.confidence, bpmResult.alternatives, detectKey data sr⟩

/-- Accumulated spectral energy (squared magnitudes) of the chroma pass that
lies inside the 60 Hz - 2000 Hz analysis band, summed over all frames. -/
noncomputable def bandEnergy (data : List ℝ) (sr : ℝ) : ℝ :=
((frames data keyFftSize keyHopSize).map (fun seg =>
  let mag := getMagnitudeSpectrum seg keyFftSize
  ∑ bin ∈ Finset.Ico 1 mag.length,
    if inBand sr keyFftSize bin then mag.getD bin 0 * mag.getD bin 0 else 0)).sum

/-- Deduplication keeping first occurrences (JS Set built from a list). -/
def dedupFirst (l : List ℤ) : List ℤ := l.foldl setAdd []

/-- The candidate alternative multiset described by the spec, as a list in
insertion order: octave partners of the primary, then the folded next-3
peaks passing the >5 filter. -/
def altCandidateList (bpm : ℤ) (altBpms : List ℤ) : List ℤ :=
(if bpm * 2 ≤ 200 then [bpm * 2] else []) ++
(if 50 * 2 ≤ bpm then [roundHalfInt bpm] else []) ++
((altBpms.map foldAlt).filter (fun a => 5 < |a - bpm|))

/-- The alternatives as the spec sentence orders the steps: deduplicate,
remove the primary, sort ascending, then truncate to the first 3 (the 3
numerically smallest). -/
def specAlternativesSortFirst (bpm : ℤ) (altBpms : List ℤ) : List ℤ :=
(List.insertionSort (fun a b => a ≤ b)
  ((dedupFirst (altCandidateList bpm altBpms)).erase bpm)).take 3

/-- The alternatives with the truncation done before the sort, on the
insertion-ordered set: what the code computes. -/
def specAlternativesTruncFirst (bpm : ℤ) (altBpms : List ℤ) : List ℤ :=
List.insertionSort (fun a b => a ≤ b)
  (((dedupFirst (altCandidateList bpm altBpms)).erase bpm).take 3)

/-- The confidence formula as claim C5 words it: denominator floored to a
minimum of 1 (max of the top-6 range and 1). -/
noncomputable def specConfidenceFloored (c mn mx : ℝ) : ℝ :=
(c - mn) / max (mx - mn) 1

/-- The frame of claim C3's counterexample: one pure sine wave at the
bin-aligned frequency f = k·sr/F with k = 1, sr = 4, F = 4, sampled at
times j / sr. -/
noncomputable def sineFrame : List ℝ :=
(List.range 4).map (fun j : ℕ => Real.sin (2 * Real.pi * 1 * (j : ℝ) / 4))

/-- The frame holding one pure sine wave at a bin-aligned frequency
f = k·sr/F, sampled at times j / sr: the sample is
sin(2π·f·(j/sr)) = sin(2π·k·j/F), independent of the sample rate. -/
noncomputable def pureSineFrame (F k : ℕ) : List ℝ :=
(List.range F).map (fun j : ℕ => Real.sin (2 * Real.pi * (k : ℝ) * (j : ℝ) / (F : ℝ)))

/-! ### Generic fold lemmas -/

theorem foldl_invariant {α β : Type*} (P : α → Prop) (f : α → β → α)
    (hstep : ∀ a b, P a → P (f a b)) :
    ∀ (l : List β) (s : α), P s → P (l.foldl f s) := by
  intro l
  induction l with
  | nil => intro s hs; exact hs
  | cons x xs ih => intro s hs; exact ih _ (hstep _ _ hs)

theorem foldl_comm_outer {α β : Type*} (g : α → α) (f : α → β → α)
    (hcomm : ∀ a b, f (g a) b = g (f a b)) :
    ∀ (l : List β) (s : α), l.foldl f (g s) = g (l.foldl f s) := by
  intro l
  induction l with
  | nil => intro s; rfl
  | cons x xs ih => intro s; simp only [List.foldl_cons, hcomm, ih]

/-! ### Small list helpers -/

theorem getD_eq_zero_of_all_zero {l : List ℝ} (h : ∀ x ∈ l, x = 0) (k : ℕ) :
    l.getD k 0 = 0 := by
  rcases lt_or_ge k l.length with hk | hk
  · rw [List.getD_eq_getElem l 0 hk]
    exact h _ (List.getElem_mem hk)
  · exact List.getD_eq_default l 0 hk

theorem jsMaxList_of_all_zero {l : List ℝ} (h : ∀ x ∈ l, x = 0) :
    jsMaxList l = 0 := by
  cases l with
  | nil => rfl
  | cons x xs =>
    have hx : x = 0 := h x (by simp)
    have haux : ∀ (ys : List ℝ) (acc : ℝ), (∀ y ∈ ys, y = 0) → acc = 0 →
        ys.foldl max acc = 0 := by
      intro ys
      induction ys with
      | nil => intro acc _ hacc; exact hacc
      | cons y ys ih =>
        intro acc hys hacc
        have hy : y = 0 := hys y (by simp)
        exact ih _ (fun z hz => hys z (by simp [hz])) (by simp [hacc, hy])
    exact haux xs x (fun y hy => h y (by simp [hy])) hx

/-! ### The FFT maps the zero state to the zero state -/

theorem swapAt_pres_zero (i j : ℕ) (st : FState)
    (h : ∀ k, st.1 k = 0 ∧ st.2 k = 0) :
    ∀ k, (swapAt i j st).1 k = 0 ∧ (swapAt i j st).2 k = 0 := by
  intro k
  have h1 : ∀ k, st.1 k = 0 := fun k => (h k).1
  have h2 : ∀ k, st.2 k = 0 := fun k => (h k).2
  constructor <;>
  · simp only [swapAt, Function.update_apply]
    split_ifs <;> simp [h1, h2]

theorem bfly_pres_zero (i hl : ℕ) (w : ℝ × ℝ) (p : FState × (ℝ × ℝ)) (j : ℕ)
    (h : ∀ k, p.1.1 k = 0 ∧ p.1.2 k = 0) :
    ∀ k, (bfly i hl w p j).1.1 k = 0 ∧ (bfly i hl w p j).1.2 k = 0 := by
  intro k
  have h1 : ∀ k, p.1.1 k = 0 := fun k => (h k).1
  have h2 : ∀ k, p.1.2 k = 0 := fun k => (h k).2
  constructor <;>
  · simp only [bfly, Function.update_apply]
    split_ifs <;> simp [h1, h2]

theorem bitReverse_pres_zero (n : ℕ) (st : FState)
    (h : ∀ k, st.1 k = 0 ∧ st.2 k = 0) :
    ∀ k, (bitReverse n st).1 k = 0 ∧ (bitReverse n st).2 k = 0 := by
  have := foldl_invariant
    (fun (p : FState × ℕ) => ∀ k, p.1.1 k = 0 ∧ p.1.2 k = 0)
    (brStep n)
    (by
      intro p i hp
      simp only [brStep]
      split
      · exact swapAt_pres_zero _ _ _ hp
      · exact hp)
    (List.range n) (st, 0) h
  exact this

theorem butterflies_pres_zero (i hl : ℕ) (w : ℝ × ℝ) (st : FState)
    (h : ∀ k, st.1 k = 0 ∧ st.2 k = 0) :
    ∀ k, (butterflies i hl w st).1 k = 0 ∧ (butterflies i hl w st).2 k = 0 := by
  have := foldl_invariant
    (fun (p : FState × (ℝ × ℝ)) => ∀ k, p.1.1 k = 0 ∧ p.1.2 k = 0)
    (bfly i hl w)
    (fun p j hp => bfly_pres_zero i hl w p j hp)
    (List.range hl) (st, (1, 0)) h
  exact this

theorem stageFn_pres_zero (n len : ℕ) (st : FState)
    (h : ∀ k, st.1 k = 0 ∧ st.2 k = 0) :
    ∀ k, (stageFn n len st).1 k = 0 ∧ (stageFn n len st).2 k = 0 := by
  exact foldl_invariant (fun (s : FState) => ∀ k, s.1 k = 0 ∧ s.2 k = 0)
    _ (fun s b hs => butterflies_pres_zero _ _ _ s hs) (List.range (n / len)) st h

theorem fft_pres_zero (n : ℕ) (st : FState)
    (h : ∀ k, st.1 k = 0 ∧ st.2 k = 0) :
    ∀ k, (fft n st).1 k = 0 ∧ (fft n st).2 k = 0 := by
  rw [fft]
  split
  · exact h
  · exact foldl_invariant (fun (s : FState) => ∀ k, s.1 k = 0 ∧ s.2 k = 0)
      _ (fun s len hs => stageFn_pres_zero n len s hs) _ _
      (bitReverse_pres_zero n st h)

theorem getMagnitudeSpectrum_of_all_zero {samples : List ℝ} (F : ℕ)
    (h : ∀ x ∈ samples, x = 0) :
    getMagnitudeSpectrum samples F = List.replicate (F / 2) 0 := by
  have hinit : ∀ k, (initState samples F).1 k = 0 ∧ (initState samples F).2 k = 0 := by
    intro k
    constructor
    · simp only [initState]
      split
      · rw [getD_eq_zero_of_all_zero h, zero_mul]
      · rfl
    · rfl
  have hz := fft_pres_zero F _ hinit
  simp only [getMagnitudeSpectrum]
  have : ∀ k ∈ List.range (F / 2),
      Real.sqrt ((fft F (initState samples F)).1 k * (fft F (initState samples F)).1 k +
        (fft F (initState samples F)).2 k * (fft F (initState samples F)).2 k) = 0 := by
    intro k _
    rw [(hz k).1, (hz k).2]
    simp
  rw [List.map_congr_left this]
  simp

/-! ### All-zero buffers through the BPM pipeline -/

theorem frames_all_zero (n F H : ℕ) :
    ∀ seg ∈ frames (List.replicate n (0 : ℝ)) F H, ∀ x ∈ seg, x = 0 := by
  intro seg hseg x hx
  simp only [frames, List.mem_map] at hseg
  obtain ⟨s, _, rfl⟩ := hseg
  have hx1 := List.mem_of_mem_take hx
  have hx2 := List.mem_of_mem_drop hx1
  exact List.eq_of_mem_replicate hx2

theorem spectralFlux_all_zero (n : ℕ) :
    ∀ x ∈ spectralFlux (List.replicate n (0 : ℝ)), x = 0 := by
  intro x hx
  simp only [spectralFlux, List.mem_map] at hx
  obtain ⟨pr, hpr, rfl⟩ := hx
  have hmem := List.of_mem_zip hpr
  have hzero : ∀ s ∈ (frames (List.replicate n (0 : ℝ)) bpmFftSize bpmHopSize).map
      (fun seg => getMagnitudeSpectrum seg bpmFftSize), ∀ y ∈ s, y = 0 := by
    intro s hs y hy
    simp only [List.mem_map] at hs
    obtain ⟨seg, hseg, rfl⟩ := hs
    rw [getMagnitudeSpectrum_of_all_zero _ (frames_all_zero n _ _ seg hseg)] at hy
    exact List.eq_of_mem_replicate hy
  have h1 : ∀ y ∈ pr.1, y = 0 := hzero pr.1 hmem.1
  have h2 : ∀ y ∈ pr.2, y = 0 := hzero pr.2 (List.mem_of_mem_drop hmem.2)
  refine Finset.sum_eq_zero ?_
  intro k _
  rw [getD_eq_zero_of_all_zero h1, getD_eq_zero_of_all_zero h2]
  simp

theorem normalizeFlux_of_all_zero {flux : List ℝ} (h : ∀ x ∈ flux, x = 0) :
    normalizeFlux flux = flux := by
  simp only [normalizeFlux, jsMaxList_of_all_zero h]
  rw [if_neg (by norm_num)]

theorem corrAtLag_of_all_zero {flux : List ℝ} (h : ∀ x ∈ flux, x = 0) (lag : ℤ) :
    corrAtLag flux lag = 0 := by
  simp only [corrAtLag]
  rw [Finset.sum_eq_zero, zero_div]
  intro i _
  rw [getD_eq_zero_of_all_zero h, zero_mul]

theorem findPeaks_of_all_zero {c : List ℝ} (h : ∀ x ∈ c, x = 0)
    (minLag : ℤ) (fps : ℝ) :
    findPeaks c minLag fps = [] := by
  simp only [findPeaks]
  rw [List.filterMap_eq_nil]
  intro i _
  rw [if_neg]
  rw [getD_eq_zero_of_all_zero h, getD_eq_zero_of_all_zero h]
  simp

theorem bpmPeaks_of_replicate_zero (n : ℕ) (sr : ℝ) :
    bpmPeaks (List.replicate n (0 : ℝ)) sr = [] := by
  have hflux := spectralFlux_all_zero n
  rw [bpmPeaks, normalizeFlux_of_all_zero hflux]
  apply findPeaks_of_all_zero
  intro x hx
  simp only [bpmCorrelations, List.mem_map] at hx
  obtain ⟨lag, _, rfl⟩ := hx
  exact corrAtLag_of_all_zero hflux lag

theorem detectBPM_replicate_zero (n : ℕ) (sr : ℝ) :
    detectBPM (List.replicate n (0 : ℝ)) sr = ⟨120, 0, []⟩ := by
  simp only [detectBPM]
  by_cases h100 : (spectralFlux (List.replicate n (0 : ℝ))).length < 100
  · rw [if_pos h100]
  · rw [if_neg h100, bpmPeaks_of_replicate_zero]
    simp [List.insertionSort]

/-! ### All-zero buffers through the key pipeline -/

theorem getD_mem_or {α : Type*} (l : List α) (n : ℕ) (d : α) :
    l.getD n d ∈ l ∨ l.getD n d = d := by
  rcases lt_or_ge n l.length with hn | hn
  · rw [List.getD_eq_getElem l d hn]
    exact Or.inl (List.getElem_mem hn)
  · exact Or.inr (List.getD_eq_default l d hn)

theorem getLastD_mem_or {α : Type*} (l : List α) (d : α) :
    l.getLastD d ∈ l ∨ l.getLastD d = d := by
  cases l with
  | nil => exact Or.inr rfl
  | cons x xs =>
    left
    rw [List.getLastD_eq_getLast?, List.getLast?_eq_getLast (x :: xs) (by simp)]
    exact List.getLast_mem _

theorem rawChroma_replicate_zero (n : ℕ) (sr : ℝ) (p : ℤ) :
    rawChroma (List.replicate n (0 : ℝ)) sr p = 0 := by
  simp only [rawChroma]
  rw [List.sum_eq_zero]
  intro x hx
  simp only [List.mem_map] at hx
  obtain ⟨seg, hseg, rfl⟩ := hx
  simp only [frameChroma]
  refine Finset.sum_eq_zero ?_
  intro bin _
  rw [getMagnitudeSpectrum_of_all_zero _ (frames_all_zero n _ _ seg hseg)]
  rw [getD_eq_zero_of_all_zero (fun y hy => List.eq_of_mem_replicate hy)]
  simp

theorem chromaVec_replicate_zero (n : ℕ) (sr : ℝ) (p : ℤ) :
    chromaVec (List.replicate n (0 : ℝ)) sr p = 0 := by
  have hmax : maxChroma (List.replicate n (0 : ℝ)) sr = 0 := by
    apply jsMaxList_of_all_zero
    intro x hx
    simp only [List.mem_map] at hx
    obtain ⟨q, _, rfl⟩ := hx
    exact rawChroma_replicate_zero n sr q
  simp only [chromaVec, hmax]
  rw [if_neg (by norm_num)]
  exact rawChroma_replicate_zero n sr p

theorem pearsonCorrelation_right_zero (a : List ℝ) {b : List ℝ}
    (hb : ∀ x ∈ b, x = 0) :
    pearsonCorrelation a b = 0 := by
  simp only [pearsonCorrelation]
  have hB : ∀ i ∈ Finset.range a.length, b.getD i 0 = 0 := by
    intro i _
    exact getD_eq_zero_of_all_zero hb i
  have hsB : ∑ i ∈ Finset.range a.length, b.getD i 0 = 0 :=
    Finset.sum_eq_zero (fun i hi => hB i hi)
  have hsB2 : ∑ i ∈ Finset.range a.length, b.getD i 0 * b.getD i 0 = 0 :=
    Finset.sum_eq_zero (fun i hi => by rw [hB i hi, zero_mul])
  rw [hsB, hsB2]
  rw [if_pos]
  rw [mul_zero, mul_zero, zero_sub, neg_zero, mul_zero, Real.sqrt_zero]

theorem keyCandidatesAll_replicate_zero (n : ℕ) (sr : ℝ) :
    ∀ c ∈ keyCandidatesAll (List.replicate n (0 : ℝ)) sr, c.correlation = 0 := by
  intro c hc
  have hshift : ∀ s : ℕ, ∀ x ∈ shiftedChroma (List.replicate n (0 : ℝ)) sr s, x = 0 := by
    intro s x hx
    simp only [shiftedChroma, List.mem_map] at hx
    obtain ⟨i, _, rfl⟩ := hx
    exact chromaVec_replicate_zero n sr _
  simp only [keyCandidatesAll, List.mem_flatMap] at hc
  obtain ⟨s, _, hc⟩ := hc
  simp only [List.mem_cons, List.mem_singleton] at hc
  rcases hc with rfl | hc
  · exact pearsonCorrelation_right_zero _ (hshift s)
  · rcases hc with rfl | h
    · exact pearsonCorrelation_right_zero _ (hshift s)
    · simp at h

theorem length_keyCandidatesAll (data : List ℝ) (sr : ℝ) :
    (keyCandidatesAll data sr).length = 24 := by
  rw [keyCandidatesAll, List.length_flatMap]
  rw [show List.range 12 = [0, 1, 2, 3, 4, 5, 6, 7, 8, 9, 10, 11] from rfl]
  simp

theorem scoreTop_of_all_zero {l : List RawCandidate}
    (hl : ∀ c ∈ l, c.correlation = 0) :
    (scoreTop l).length = min 6 l.length ∧ ∀ c ∈ scoreTop l, c.confidence = 0 := by
  have htops : ∀ c ∈ l.take 6, c.correlation = 0 :=
    fun c hc => hl c (List.mem_of_mem_take hc)
  have hmax : ((l.take 6).getD 0 default).correlation = 0 := by
    rcases getD_mem_or (l.take 6) 0 default with h | h
    · exact htops _ h
    · rw [h]; rfl
  have hmin : ((l.take 6).getLastD default).correlation = 0 := by
    rcases getLastD_mem_or (l.take 6) default with h | h
    · exact htops _ h
    · rw [h]; rfl
  constructor
  · simp [scoreTop]
  · intro c hc
    simp only [scoreTop, hmax, hmin, List.mem_map] at hc
    obtain ⟨c0, hc0, rfl⟩ := hc
    simp [htops c0 hc0]

theorem detectKey_replicate_zero (n : ℕ) (sr : ℝ) :
    (detectKey (List.replicate n (0 : ℝ)) sr).length = 6 ∧
    ∀ c ∈ detectKey (List.replicate n (0 : ℝ)) sr, c.confidence = 0 := by
  have hperm : (rankedCandidates (List.replicate n (0 : ℝ)) sr).Perm
      (keyCandidatesAll (List.replicate n (0 : ℝ)) sr) :=
    List.perm_insertionSort _ _
  have hall : ∀ c ∈ rankedCandidates (List.replicate n (0 : ℝ)) sr, c.correlation = 0 :=
    fun c hc => keyCandidatesAll_replicate_zero n sr c (hperm.mem_iff.mp hc)
  have hlen : (rankedCandidates (List.replicate n (0 : ℝ)) sr).length = 24 := by
    rw [hperm.length_eq, length_keyCandidatesAll]
  have := scoreTop_of_all_zero hall
  rw [detectKey]
  rw [hlen] at this
  exact ⟨by simpa using this.1, this.2⟩

/-! ### Claims C1 and C2 -/

/-- C1: for every all-zero input buffer, of any length, and any positive
sample rate, the analysis returns bpm = 120, bpmConfidence = 0,
bpmAlternatives = [], and 6 key candidates each with confidence 0.  (In this
exact-arithmetic embedding every operation is total, so no NaN and no thrown
error can occur.) -/
theorem claim_C1_silence (n : ℕ) (sr : ℝ) (hsr : 0 < sr) :
    (analyzeAudio (List.replicate n (0 : ℝ)) sr).bpm = 120 ∧
    (analyzeAudio (List.replicate n (0 : ℝ)) sr).bpmConfidence = 0 ∧
    (analyzeAudio (List.replicate n (0 : ℝ)) sr).bpmAlternatives = [] ∧
    (analyzeAudio (List.replicate n (0 : ℝ)) sr).keyCandidates.length = 6 ∧
    ∀ c ∈ (analyzeAudio (List.replicate n (0 : ℝ)) sr).keyCandidates,
      c.confidence = 0 := by
  refine ⟨?_, ?_, ?_, ?_, ?_⟩
  · simp [analyzeAudio, detectBPM_replicate_zero]
  · simp [analyzeAudio, detectBPM_replicate_zero]
  · simp [analyzeAudio, detectBPM_replicate_zero]
  · simpa [analyzeAudio] using (detectKey_replicate_zero n sr).1
  · intro c hc
    exact (detectKey_replicate_zero n sr).2 c (by simpa [analyzeAudio] using hc)

/-- Witness for C1 at n = 5, sr = 44100. -/
theorem claim_C1_silence_witness :
    (0 : ℝ) < 44100 ∧
    ((analyzeAudio (List.replicate 5 (0 : ℝ)) 44100).bpm = 120 ∧
     (analyzeAudio (List.replicate 5 (0 : ℝ)) 44100).bpmConfidence = 0 ∧
     (analyzeAudio (List.replicate 5 (0 : ℝ)) 44100).bpmAlternatives = [] ∧
     (analyzeAudio (List.replicate 5 (0 : ℝ)) 44100).keyCandidates.length = 6 ∧
     ∀ c ∈ (analyzeAudio (List.replicate 5 (0 : ℝ)) 44100).keyCandidates,
       c.confidence = 0) :=
  ⟨by norm_num, claim_C1_silence 5 44100 (by norm_num)⟩

/-- C2: whenever the flux pass produced fewer than 100 flux values, or the
autocorrelation scan found no strict local maximum, detectBPM returns the
degenerate result bpm = 120, confidence = 0, alternatives = []. -/
theorem claim_C2_degenerate_fallback (data : List ℝ) (sr : ℝ)
    (h : (spectralFlux data).length < 100 ∨ bpmPeaks data sr = []) :
    detectBPM data sr = ⟨120, 0, []⟩ := by
  simp only [detectBPM]
  rcases h with h | h
  · rw [if_pos h]
  · by_cases h100 : (spectralFlux data).length < 100
    · rw [if_pos h100]
    · rw [if_neg h100, h]
      simp [List.insertionSort]

/-- Witness for C2 at the empty buffer (its flux pass yields 0 values). -/
theorem claim_C2_degenerate_fallback_witness :
    ((spectralFlux ([] : List ℝ)).length < 100 ∨ bpmPeaks ([] : List ℝ) 44100 = []) ∧
    detectBPM ([] : List ℝ) 44100 = ⟨120, 0, []⟩ := by
  have h1 : spectralFlux ([] : List ℝ) = [] := rfl
  have h : (spectralFlux ([] : List ℝ)).length < 100 := by
    rw [h1]
    norm_num
  exact ⟨Or.inl h, claim_C2_degenerate_fallback [] 44100 (Or.inl h)⟩

/-! ### Claim C4: the framer -/

theorem lt_frameCount_iff {M H i : ℕ} (hH : 0 < H) :
    i < (M + (H - 1)) / H ↔ i * H < M := by
  rw [Nat.lt_iff_add_one_le, Nat.le_div_iff_mul_le hH, add_mul, one_mul]
  have hx : 0 ≤ i * H := Nat.zero_le _
  generalize i * H = x at hx ⊢
  omega

/-- C4 counterexample: a buffer of length exactly F (= 8192, the key-pass
frame size, with hop 4096) yields no frame at all, although the claimed
emission condition 0 + F ≤ L holds at start 0: the loop condition is the
strict start + F < L. -/
theorem claim_C4_counterexample :
    frameStarts 8192 8192 4096 = [] ∧ 0 + 8192 ≤ 8192 :=
  ⟨rfl, by norm_num⟩

/-- C4 amended: the i-th frame starts at sample i·H, and a start s is
emitted exactly when s is a multiple of H and s + F < L (strict); trailing
partial frames are dropped, never padded; a buffer of length exactly F
yields no frame (one frame needs L ≥ F + 1). -/
theorem claim_C4_frames (L F H : ℕ) (hH : 0 < H) :
    (∀ s, s ∈ frameStarts L F H ↔ H ∣ s ∧ s + F < L) ∧
    (∀ i, i < (frameStarts L F H).length →
      (frameStarts L F H).getD i 0 = i * H) := by
  constructor
  · intro s
    simp only [frameStarts, List.mem_map, List.mem_range]
    constructor
    · rintro ⟨i, hi, rfl⟩
      have h2 : i * H < L - F := (lt_frameCount_iff hH).mp hi
      exact ⟨dvd_mul_left H i, by omega⟩
    · rintro ⟨⟨i, rfl⟩, hlt⟩
      refine ⟨i, ?_, mul_comm i H⟩
      rw [lt_frameCount_iff hH, mul_comm]
      omega
  · intro i hi
    simp only [frameStarts, List.length_map, List.length_range] at hi
    simp only [frameStarts]
    rw [List.getD_eq_getElem _ 0 (by simpa using hi)]
    simp

/-- Witness for C4 at L = 8193, F = 8192, H = 4096, s = 0 (one frame). -/
theorem claim_C4_frames_witness :
    0 < 4096 ∧ (0 ∈ frameStarts 8193 8192 4096 ↔ 4096 ∣ 0 ∧ 0 + 8192 < 8193) :=
  ⟨by norm_num, (claim_C4_frames 8193 8192 4096 (by norm_num)).1 0⟩

/-! ### Claims C6 and C7: the alternatives block -/

/-- C6 counterexample: with primary bpm 100 and next peaks 110 and 120 the
candidate set in insertion order is 200, 50, 110, 120; the code keeps the
first 3 inserted and then sorts ([50, 110, 200]), while the claimed
sort-then-truncate order keeps the 3 smallest ([50, 110, 120]). -/
theorem claim_C6_counterexample :
    collectAlternatives 100 [110, 120] = [50, 110, 200] ∧
    specAlternativesSortFirst 100 [110, 120] = [50, 110, 120] ∧
    collectAlternatives 100 [110, 120] ≠ specAlternativesSortFirst 100 [110, 120] := by
  refine ⟨by decide, by decide, by decide⟩

/-- C6 amended: the returned alternatives are obtained from the candidate
set (half/double of the primary plus the folded next-3 peaks passing the
>5 filter) by deduplicating in insertion order, removing the primary bpm,
truncating to the first 3 inserted, and then sorting ascending — the
truncation precedes the sort, so the 3 earliest-inserted (not the 3
numerically smallest) survive. -/
theorem claim_C6_alternatives (bpm : ℤ) (altBpms : List ℤ) :
    collectAlternatives bpm altBpms = specAlternativesTruncFirst bpm altBpms := by
  have key : ∀ (l : List ℤ) (s : List ℤ),
      l.foldl (fun s p => if 5 < |foldAlt p - bpm| then setAdd s (foldAlt p) else s) s =
      ((l.map foldAlt).filter (fun a => 5 < |a - bpm|)).foldl setAdd s := by
    intro l
    induction l with
    | nil => intro s; rfl
    | cons x xs ih =>
      intro s
      by_cases hx : 5 < |foldAlt x - bpm|
      · simp [List.filter_cons, hx, ih]
      · simp [List.filter_cons, hx, ih]
  simp only [collectAlternatives, specAlternativesTruncFirst, dedupFirst,
    altCandidateList]
  rw [List.foldl_append, List.foldl_append, key]
  by_cases h1 : bpm * 2 ≤ 200 <;> by_cases h2 : (100 : ℤ) ≤ bpm <;>
    simp [h1, h2, show ((50 : ℤ) * 2 = 100) from rfl]

/-- C7 counterexample: with primary bpm 102 and next peaks 110 and 112 the
returned alternatives are [51, 110, 112]; 110 and 112 are only 2 apart, so
the entries are not mutually more than 5 apart (each is, however, more than
5 from the primary). -/
theorem claim_C7_counterexample :
    collectAlternatives 102 [110, 112] = [51, 110, 112] ∧
    ¬ List.Pairwise (fun a b => 5 < |a - b|) (collectAlternatives 102 [110, 112]) := by
  refine ⟨by decide, by decide⟩

theorem mem_setAdd {l : List ℤ} {x y : ℤ} : y ∈ setAdd l x ↔ y ∈ l ∨ y = x := by
  simp only [setAdd]
  split_ifs with h
  · constructor
    · exact Or.inl
    · rintro (hy | rfl)
      · exact hy
      · exact h
  · simp [List.mem_append]

theorem nodup_setAdd {l : List ℤ} (h : l.Nodup) (x : ℤ) : (setAdd l x).Nodup := by
  simp only [setAdd]
  split_ifs with hx
  · exact h
  · simp [List.nodup_append, h, hx]

/-- The set built by the alternatives block, before deletion/truncation:
nodup, and every member is the doubled primary, the rounded half of the
primary (only when 100 ≤ bpm), or a folded peak more than 5 from the
primary. -/
theorem alt_shape (bpm : ℤ) (altBpms : List ℤ) :
    ∃ S : List ℤ, S.Nodup ∧
      (∀ y ∈ S, (y = bpm * 2 ∧ bpm * 2 ≤ 200) ∨
        (y = roundHalfInt bpm ∧ 100 ≤ bpm) ∨ 5 < |y - bpm|) ∧
      collectAlternatives bpm altBpms =
        List.insertionSort (fun a b => a ≤ b) ((S.erase bpm).take 3) := by
  refine ⟨altBpms.foldl
    (fun s p => if 5 < |foldAlt p - bpm| then setAdd s (foldAlt p) else s)
    (if 50 * 2 ≤ bpm then
      setAdd (if bpm * 2 ≤ 200 then setAdd [] (bpm * 2) else []) (roundHalfInt bpm)
     else (if bpm * 2 ≤ 200 then setAdd [] (bpm * 2) else [])), ?_, ?_, rfl⟩
  · apply foldl_invariant (fun s : List ℤ => s.Nodup)
    · intro s p hs
      split_ifs with h
      · exact nodup_setAdd hs _
      · exact hs
    · split_ifs with h1 h2 h2
      · exact nodup_setAdd (nodup_setAdd List.nodup_nil _) _
      · exact nodup_setAdd List.nodup_nil _
      · exact nodup_setAdd List.nodup_nil _
      · exact List.nodup_nil
  · apply foldl_invariant (fun s : List ℤ => ∀ y ∈ s,
      (y = bpm * 2 ∧ bpm * 2 ≤ 200) ∨ (y = roundHalfInt bpm ∧ 100 ≤ bpm) ∨ 5 < |y - bpm|)
    · intro s p hs y hy
      by_cases h : 5 < |foldAlt p - bpm|
      · rw [if_pos h, mem_setAdd] at hy
        rcases hy with hy | rfl
        · exact hs y hy
        · exact Or.inr (Or.inr h)
      · rw [if_neg h] at hy
        exact hs y hy
    · intro y hy
      split_ifs at hy with h1 h2 h2
      · rw [mem_setAdd, mem_setAdd] at hy
        rcases hy with (hy | rfl) | rfl
        · simp at hy
        · exact Or.inl ⟨rfl, h2⟩
        · exact Or.inr (Or.inl ⟨rfl, by omega⟩)
      · rw [mem_setAdd] at hy
        rcases hy with hy | rfl
        · simp at hy
        · exact Or.inr (Or.inl ⟨rfl, by omega⟩)
      · rw [mem_setAdd] at hy
        rcases hy with hy | rfl
        · simp at hy
        · exact Or.inl ⟨rfl, h2⟩
      · simp at hy

theorem collectAlternatives_invariants (bpm : ℤ) (altBpms : List ℤ) (h60 : 60 ≤ bpm) :
    bpm ∉ collectAlternatives bpm altBpms ∧
    (collectAlternatives bpm altBpms).length ≤ 3 ∧
    List.Sorted (fun a b : ℤ => a < b) (collectAlternatives bpm altBpms) ∧
    ∀ a ∈ collectAlternatives bpm altBpms, 5 < |a - bpm| := by
  obtain ⟨S, hnd, hchar, heq⟩ := alt_shape bpm altBpms
  have hperm : (collectAlternatives bpm altBpms).Perm ((S.erase bpm).take 3) := by
    rw [heq]
    exact List.perm_insertionSort _ _
  have hnd2 : ((S.erase bpm).take 3).Nodup := (hnd.erase bpm).sublist (List.take_sublist _ _)
  refine ⟨?_, ?_, ?_, ?_⟩
  · intro hmem
    have h1 : bpm ∈ (S.erase bpm).take 3 := hperm.mem_iff.mp hmem
    have h2 : bpm ∈ S.erase bpm := List.mem_of_mem_take h1
    exact ((hnd.mem_erase_iff.mp h2).1) rfl
  · rw [hperm.length_eq]
    exact le_trans (List.length_take_le _ _) (le_refl 3)
  · have hsle : List.Sorted (fun a b : ℤ => a ≤ b) (collectAlternatives bpm altBpms) := by
      rw [heq]
      exact List.sorted_insertionSort _ _
    have hndR : (collectAlternatives bpm altBpms).Nodup := hperm.nodup_iff.mpr hnd2
    exact (hsle.and hndR).imp (fun h => lt_of_le_of_ne h.1 h.2)
  · intro a hmem
    have h1 : a ∈ (S.erase bpm).take 3 := hperm.mem_iff.mp hmem
    have h2 : a ∈ S.erase bpm := List.mem_of_mem_take h1
    have hne : a ≠ bpm := (hnd.mem_erase_iff.mp h2).1
    have hS : a ∈ S := List.mem_of_mem_erase h2
    rcases hchar a hS with ⟨rfl, hle⟩ | ⟨rfl, h100⟩ | hfar
    · rw [show bpm * 2 - bpm = bpm by ring, abs_of_nonneg (by omega)]
      omega
    · have hlt : roundHalfInt bpm ≤ bpm - 6 := by
        unfold roundHalfInt
        omega
      calc (5 : ℤ) < bpm - roundHalfInt bpm := by omega
      _ ≤ |roundHalfInt bpm - bpm| := by
          rw [abs_sub_comm]
          exact le_abs_self _
    · exact hfar

/-! ### The primary bpm of a non-degenerate detectBPM run is at least 60 -/

theorem mem_findPeaks {c : List ℝ} {minLag : ℤ} {fps : ℝ} {p : TempoPeak}
    (hp : p ∈ findPeaks c minLag fps) :
    ∃ i : ℕ, 1 ≤ i ∧ i < c.length - 1 ∧
      p.bpm = jsRound (60 * fps / ((minLag : ℝ) + (i : ℝ))) := by
  simp only [findPeaks, List.mem_filterMap, List.mem_map, List.mem_range] at hp
  obtain ⟨i, ⟨k, hk, rfl⟩, hcond⟩ := hp
  split_ifs at hcond
  rw [Option.some_inj] at hcond
  exact ⟨k + 1, by omega, by omega, by rw [← hcond]⟩

theorem length_bpmLags_le (L : ℕ) (sr : ℝ) :
    (bpmLags L sr).length ≤ (bpmMaxLag sr - bpmMinLag sr + 1).toNat := by
  calc (bpmLags L sr).length
      ≤ ((List.range (bpmMaxLag sr - bpmMinLag sr + 1).toNat).map
          (fun k : ℕ => bpmMinLag sr + (k : ℤ))).length :=
        (List.takeWhile_prefix _).length_le
  _ = (bpmMaxLag sr - bpmMinLag sr + 1).toNat := by simp

theorem bpmPeaks_bpm_ge (data : List ℝ) (sr : ℝ) (hsr : 0 < sr) :
    ∀ p ∈ bpmPeaks data sr, 60 ≤ p.bpm := by
  intro p hp
  obtain ⟨i, hi1, hi2, hbpm⟩ := mem_findPeaks hp
  have hfps : 0 < bpmFps sr := by
    rw [bpmFps, bpmHopSize]
    positivity
  have hmin0 : 0 ≤ bpmMinLag sr := by
    rw [bpmMinLag]
    exact Int.floor_nonneg.mpr (by positivity)
  have hclen : (bpmCorrelations (normalizeFlux (spectralFlux data)) sr).length =
      (bpmLags (normalizeFlux (spectralFlux data)).length sr).length := by
    simp [bpmCorrelations]
  have hiL : i < (bpmLags (normalizeFlux (spectralFlux data)).length sr).length := by
    rw [← hclen]
    omega
  have hcnt := length_bpmLags_le (normalizeFlux (spectralFlux data)).length sr
  have hlag_le : bpmMinLag sr + (i : ℤ) ≤ bpmMaxLag sr := by omega
  have hmaxfps : ((bpmMaxLag sr : ℤ) : ℝ) ≤ bpmFps sr := by
    rw [bpmMaxLag]
    calc ((⌊(60 / 60 : ℝ) * bpmFps sr⌋ : ℤ) : ℝ) ≤ (60 / 60 : ℝ) * bpmFps sr :=
      Int.floor_le _
    _ = bpmFps sr := by norm_num
  have hlagR_pos : (0 : ℝ) < (bpmMinLag sr : ℝ) + (i : ℝ) := by
    have : (1 : ℝ) ≤ (bpmMinLag sr : ℝ) + (i : ℝ) := by
      push_cast
      exact_mod_cast (by omega : (1 : ℤ) ≤ bpmMinLag sr + (i : ℤ))
    linarith
  have hlagR_le : (bpmMinLag sr : ℝ) + (i : ℝ) ≤ bpmFps sr := by
    calc (bpmMinLag sr : ℝ) + (i : ℝ) = ((bpmMinLag sr + (i : ℤ) : ℤ) : ℝ) := by push_cast; ring
    _ ≤ ((bpmMaxLag sr : ℤ) : ℝ) := by exact_mod_cast hlag_le
    _ ≤ bpmFps sr := hmaxfps
  rw [hbpm, jsRound]
  apply Int.le_floor.mpr
  push_cast
  have h1 : (1 : ℝ) ≤ bpmFps sr / ((bpmMinLag sr : ℝ) + (i : ℝ)) :=
    (one_le_div hlagR_pos).mpr hlagR_le
  have h2 : (60 : ℝ) ≤ 60 * (bpmFps sr / ((bpmMinLag sr : ℝ) + (i : ℝ))) := by linarith
  rw [mul_div_assoc]
  linarith

theorem foldPrimary_ge (b : ℤ) (hb : 60 ≤ b) : 60 ≤ foldPrimary b := by
  unfold foldPrimary roundHalfInt
  split_ifs <;> omega

/-- C7 amended: for every input with a positive sample rate, the returned
bpmAlternatives never contain the primary bpm, have at most 3 entries, are
strictly ascending, and each entry differs from the primary bpm by more
than 5.  (The entries need not be mutually more than 5 apart: the code
never compares alternatives with each other.) -/
theorem claim_C7_invariants (data : List ℝ) (sr : ℝ) (hsr : 0 < sr) :
    (detectBPM data sr).bpm ∉ (detectBPM data sr).alternatives ∧
    (detectBPM data sr).alternatives.length ≤ 3 ∧
    List.Sorted (fun a b : ℤ => a < b) (detectBPM data sr).alternatives ∧
    ∀ a ∈ (detectBPM data sr).alternatives, 5 < |a - (detectBPM data sr).bpm| := by
  simp only [detectBPM]
  split
  · simp
  · cases hpeaks : List.insertionSort peakOrder (bpmPeaks data sr) with
    | nil => simp
    | cons best rest =>
      have hbest : best ∈ bpmPeaks data sr := by
        have hmem : best ∈ List.insertionSort peakOrder (bpmPeaks data sr) := by
          rw [hpeaks]
          simp
        exact (List.perm_insertionSort _ _).mem_iff.mp hmem
      have h60 : 60 ≤ foldPrimary best.bpm :=
        foldPrimary_ge _ (bpmPeaks_bpm_ge data sr hsr best hbest)
      have := collectAlternatives_invariants (foldPrimary best.bpm)
        ((rest.take 3).map TempoPeak.bpm) h60
      simpa using this

/-- Witness for C7 at the empty buffer and sr = 44100 (degenerate result,
whose empty alternative list satisfies every invariant). -/
theorem claim_C7_invariants_witness :
    (0 : ℝ) < 44100 ∧
    ((detectBPM ([] : List ℝ) 44100).bpm ∉ (detectBPM ([] : List ℝ) 44100).alternatives ∧
     (detectBPM ([] : List ℝ) 44100).alternatives.length ≤ 3 ∧
     List.Sorted (fun a b : ℤ => a < b) (detectBPM ([] : List ℝ) 44100).alternatives ∧
     ∀ a ∈ (detectBPM ([] : List ℝ) 44100).alternatives,
       5 < |a - (detectBPM ([] : List ℝ) 44100).bpm|) :=
  ⟨by norm_num, claim_C7_invariants [] 44100 (by norm_num)⟩

/-! ### Sorted-candidate infrastructure for the key claims -/

theorem getD_zero_mem {α : Type*} {l : List α} (d : α) (h : l ≠ []) :
    l.getD 0 d ∈ l := by
  cases l with
  | nil => simp at h
  | cons x xs => simp

theorem getLastD_mem {α : Type*} {l : List α} (d : α) (h : l ≠ []) :
    l.getLastD d ∈ l := by
  cases l with
  | nil => simp at h
  | cons x xs =>
    rw [List.getLastD_eq_getLast?, List.getLast?_eq_getLast (x :: xs) (by simp)]
    exact List.getLast_mem _

theorem sorted_rankedCandidates (data : List ℝ) (sr : ℝ) :
    List.Sorted candOrder (rankedCandidates data sr) :=
  List.sorted_insertionSort _ _

theorem length_rankedCandidates (data : List ℝ) (sr : ℝ) :
    (rankedCandidates data sr).length = 24 := by
  rw [rankedCandidates, (List.perm_insertionSort _ _).length_eq, length_keyCandidatesAll]

theorem length_topSix (data : List ℝ) (sr : ℝ) : (topSix data sr).length = 6 := by
  rw [topSix, List.length_take, length_rankedCandidates]
  decide

theorem topSix_ne_nil (data : List ℝ) (sr : ℝ) : topSix data sr ≠ [] := by
  intro h
  have := length_topSix data sr
  rw [h] at this
  simp at this

theorem sorted_topSix (data : List ℝ) (sr : ℝ) :
    List.Sorted candOrder (topSix data sr) :=
  List.Pairwise.sublist (List.take_sublist 6 _) (sorted_rankedCandidates data sr)

theorem head_corr_greatest {l : List RawCandidate} (h : List.Sorted candOrder l) :
    ∀ c ∈ l, c.correlation ≤ (l.getD 0 default).correlation := by
  intro c hc
  cases l with
  | nil => simp at hc
  | cons x xs =>
    rcases List.mem_cons.mp hc with rfl | hmem
    · simp
    · simpa using List.rel_of_sorted_cons h c hmem

theorem getLastD_corr_least {l : List RawCandidate} (h : List.Sorted candOrder l) :
    ∀ c ∈ l, (l.getLastD default).correlation ≤ c.correlation := by
  intro c hc
  have hne : l ≠ [] := List.ne_nil_of_mem hc
  rw [List.getLastD_eq_getLast?, List.getLast?_eq_getLast l hne]
  obtain ⟨i, hi, rfl⟩ := List.getElem_of_mem hc
  rw [List.getLast_eq_getElem]
  have hle : i ≤ l.length - 1 := by omega
  have hrel := h.rel_get_of_le (a := ⟨i, hi⟩)
    (b := ⟨l.length - 1, by omega⟩) (by simpa using hle)
  simpa [candOrder] using hrel

/-- detectKey definitionally equals the min-max rescale of the retained top
six, with maxCorr read at index 0 and minCorr at the last index. -/
theorem detectKey_eq_rescale (data : List ℝ) (sr : ℝ) :
    detectKey data sr = (topSix data sr).map (fun c =>
      ⟨c.key, c.mode, (c.correlation - ((topSix data sr).getLastD default).correlation) /
        (if ((topSix data sr).getD 0 default).correlation -
            ((topSix data sr).getLastD default).correlation = 0 then 1
         else ((topSix data sr).getD 0 default).correlation -
            ((topSix data sr).getLastD default).correlation)⟩) := rfl

/-! ### Claim C5 -/

/-- C5 counterexample: at a top-6 correlation spread of 1/2 (max 1/2, min 0)
the code's rescale gives the top candidate confidence (1/2 - 0)/(1/2) = 1,
while the claimed formula with the denominator floored to a minimum of 1
gives (1/2 - 0)/max(1/2, 1) = 1/2. -/
theorem claim_C5_counterexample :
    (scoreTop [⟨"C", Mode.major, 1/2⟩, ⟨"C", Mode.minor, 0⟩, ⟨"D", Mode.major, 0⟩,
      ⟨"D", Mode.minor, 0⟩, ⟨"E", Mode.major, 0⟩, ⟨"E", Mode.minor, 0⟩]).map
        KeyCandidate.confidence = [1, 0, 0, 0, 0, 0] ∧
    specConfidenceFloored (1/2) 0 (1/2) ≠ 1 := by
  constructor
  · norm_num [scoreTop, List.getLastD]
  · norm_num [specConfidenceFloored]

/-- C5 amended: the 6 retained candidates are 6 of the 24 with the largest
correlation, and each confidence equals (corr - minTop6) / d where d is
maxTop6 - minTop6 with 1 substituted exactly when maxTop6 = minTop6 (the
denominator is not floored to 1 when it lies strictly between 0 and 1). -/
theorem claim_C5_confidence (data : List ℝ) (sr : ℝ) :
    ∃ mn mx : ℝ,
      IsLeast {x : ℝ | ∃ c ∈ topSix data sr, c.correlation = x} mn ∧
      IsGreatest {x : ℝ | ∃ c ∈ topSix data sr, c.correlation = x} mx ∧
      (∀ c ∈ topSix data sr, ∀ d ∈ (rankedCandidates data sr).drop 6,
        d.correlation ≤ c.correlation) ∧
      (keyCandidatesAll data sr).Perm (topSix data sr ++ (rankedCandidates data sr).drop 6) ∧
      detectKey data sr = (topSix data sr).map (fun c =>
        ⟨c.key, c.mode, (c.correlation - mn) / (if mx - mn = 0 then 1 else mx - mn)⟩) := by
  refine ⟨((topSix data sr).getLastD default).correlation,
    ((topSix data sr).getD 0 default).correlation, ?_, ?_, ?_, ?_, rfl⟩
  · constructor
    · exact ⟨_, getLastD_mem default (topSix_ne_nil data sr), rfl⟩
    · rintro x ⟨c, hc, rfl⟩
      exact getLastD_corr_least (sorted_topSix data sr) c hc
  · constructor
    · exact ⟨_, getD_zero_mem default (topSix_ne_nil data sr), rfl⟩
    · rintro x ⟨c, hc, rfl⟩
      exact head_corr_greatest (sorted_topSix data sr) c hc
  · intro c hc d hd
    exact (sorted_rankedCandidates data sr).rel_of_mem_take_of_mem_drop hc hd
  · rw [topSix, List.take_append_drop]
    exact (List.perm_insertionSort _ _).symm

/-! ### Claim C10 -/

theorem getD_zero_map {α β : Type*} (f : α → β) {l : List α} (d : α) (e : β)
    (h : l ≠ []) : (l.map f).getD 0 e = f (l.getD 0 d) := by
  cases l with
  | nil => simp at h
  | cons x xs => simp

theorem getLastD_map {α β : Type*} (f : α → β) {l : List α} (d : α) (e : β)
    (h : l ≠ []) : (l.map f).getLastD e = f (l.getLastD d) := by
  cases l with
  | nil => simp at h
  | cons x xs =>
    rw [List.getLastD_eq_getLast?, List.getLastD_eq_getLast?, List.getLast?_map,
      List.getLast?_eq_getLast (x :: xs) (by simp)]
    simp

/-- C10: detectKey always returns exactly 6 candidates; their confidences
are non-increasing and lie in [0, 1]; the last confidence is always 0; the
first confidence is 0 when the six retained correlations are all equal and
1 otherwise. -/
theorem claim_C10_detectKey_shape (data : List ℝ) (sr : ℝ) :
    (detectKey data sr).length = 6 ∧
    List.Sorted (fun a b : KeyCandidate => b.confidence ≤ a.confidence) (detectKey data sr) ∧
    (∀ c ∈ detectKey data sr, 0 ≤ c.confidence ∧ c.confidence ≤ 1) ∧
    ((detectKey data sr).getLastD ⟨"", Mode.major, 0⟩).confidence = 0 ∧
    ((∀ c ∈ topSix data sr, ∀ d ∈ topSix data sr, c.correlation = d.correlation) →
      ((detectKey data sr).getD 0 ⟨"", Mode.major, 0⟩).confidence = 0) ∧
    (¬ (∀ c ∈ topSix data sr, ∀ d ∈ topSix data sr, c.correlation = d.correlation) →
      ((detectKey data sr).getD 0 ⟨"", Mode.major, 0⟩).confidence = 1) := by
  have hne := topSix_ne_nil data sr
  have hsort := sorted_topSix data sr
  have hlen := length_topSix data sr
  have hkey := detectKey_eq_rescale data sr
  have hmnle : ∀ c ∈ topSix data sr,
      ((topSix data sr).getLastD default).correlation ≤ c.correlation :=
    getLastD_corr_least hsort
  have hmxge : ∀ c ∈ topSix data sr,
      c.correlation ≤ ((topSix data sr).getD 0 default).correlation :=
    head_corr_greatest hsort
  set T := topSix data sr with hT
  set mn := (T.getLastD default).correlation with hmn
  set mx := (T.getD 0 default).correlation with hmx
  have hmnmx : mn ≤ mx :=
    le_trans (hmnle _ (getD_zero_mem default hne)) (hmxge _ (getD_zero_mem default hne))
  set rng := (if mx - mn = 0 then (1 : ℝ) else mx - mn) with hrng
  have hrngpos : 0 < rng := by
    rw [hrng]
    split_ifs with h0
    · norm_num
    · have hne2 : mn ≠ mx := fun he => h0 (by rw [he, sub_self])
      have := lt_of_le_of_ne hmnmx hne2
      linarith
  rw [hkey]
  refine ⟨?_, ?_, ?_, ?_, ?_, ?_⟩
  · rw [List.length_map, hlen]
  · rw [List.Sorted, List.pairwise_map]
    refine hsort.imp ?_
    intro a b hab
    have h1 : b.correlation - mn ≤ a.correlation - mn := by
      simpa [candOrder] using sub_le_sub_right hab mn
    simpa using (div_le_div_right hrngpos).mpr h1
  · intro c' hc'
    rcases List.mem_map.mp hc' with ⟨c, hc, rfl⟩
    constructor
    · exact div_nonneg (sub_nonneg.mpr (hmnle c hc)) hrngpos.le
    · rw [div_le_one hrngpos, hrng]
      split_ifs with h0
      · have h1 := hmxge c hc
        have h2 : mx = mn := by linarith [h0]
      -- c.correlation - mn ≤ 1
        linarith
      · linarith [hmxge c hc]
  · rw [getLastD_map _ default _ hne]
    show ((T.getLastD default).correlation - mn) / rng = 0
    rw [← hmn, sub_self, zero_div]
  · intro hall
    have hmxmn : mx = mn :=
      hall _ (getD_zero_mem default hne) _ (getLastD_mem default hne)
    rw [getD_zero_map _ default _ hne]
    simp only [← hmx, hmxmn]
    simp
  · intro hnall
    have hne2 : mx ≠ mn := by
      intro he
      apply hnall
      intro c hc d hd
      have h1 : c.correlation ≤ mx := hmxge c hc
      have h2 : mn ≤ c.correlation := hmnle c hc
      have h3 : d.correlation ≤ mx := hmxge d hd
      have h4 : mn ≤ d.correlation := hmnle d hd
      linarith
    rw [getD_zero_map _ default _ hne]
    simp only [← hmx]
    have hcond : ¬ (mx - mn = 0) := fun h0 => hne2 (by linarith)
    rw [hrng, if_neg hcond]
    simpa using div_self (sub_ne_zero.mpr hne2)

/-! ### Claim C8: the chroma normalization invariant -/

theorem le_foldl_max (xs : List ℝ) : ∀ acc, acc ≤ xs.foldl max acc := by
  induction xs with
  | nil => intro acc; exact le_refl acc
  | cons y ys ih =>
    intro acc
    exact le_trans (le_max_left acc y) (ih (max acc y))

theorem mem_le_foldl_max (xs : List ℝ) : ∀ acc y, y ∈ xs → y ≤ xs.foldl max acc := by
  induction xs with
  | nil => intro acc y hy; simp at hy
  | cons z zs ih =>
    intro acc y hy
    rcases List.mem_cons.mp hy with rfl | hy
    · exact le_trans (le_max_right acc y) (le_foldl_max zs (max acc y))
    · exact ih (max acc z) y hy

theorem le_jsMaxList {l : List ℝ} {y : ℝ} (hy : y ∈ l) : y ≤ jsMaxList l := by
  cases l with
  | nil => simp at hy
  | cons x xs =>
    rcases List.mem_cons.mp hy with rfl | hy
    · exact le_foldl_max xs y
    · exact mem_le_foldl_max xs x y hy

theorem foldl_max_mem (xs : List ℝ) : ∀ acc, xs.foldl max acc = acc ∨ xs.foldl max acc ∈ xs := by
  induction xs with
  | nil => intro acc; exact Or.inl rfl
  | cons y ys ih =>
    intro acc
    rcases ih (max acc y) with h | h
    · rcases max_choice acc y with hm | hm
      · exact Or.inl (by rw [List.foldl_cons, h, hm])
      · exact Or.inr (by rw [List.foldl_cons, h, hm]; simp)
    · exact Or.inr (by simp [h])

theorem jsMaxList_mem {l : List ℝ} (h : l ≠ []) : jsMaxList l ∈ l := by
  cases l with
  | nil => simp at h
  | cons x xs =>
    rcases foldl_max_mem xs x with hm | hm
    · rw [jsMaxList, hm]; simp
    · rw [jsMaxList]; exact List.mem_cons_of_mem x hm

theorem frameChroma_nonneg (seg : List ℝ) (sr : ℝ) (p : ℤ) : 0 ≤ frameChroma seg sr p := by
  apply Finset.sum_nonneg
  intro bin _
  split_ifs
  · exact mul_self_nonneg _
  · exact le_refl 0

theorem rawChroma_nonneg (data : List ℝ) (sr : ℝ) (p : ℤ) : 0 ≤ rawChroma data sr p := by
  apply List.sum_nonneg
  intro x hx
  rcases List.mem_map.mp hx with ⟨seg, _, rfl⟩
  exact frameChroma_nonneg seg sr p

theorem rawChroma_le_maxChroma (data : List ℝ) (sr : ℝ) {p : ℕ} (hp : p < 12) :
    rawChroma data sr (p : ℤ) ≤ maxChroma data sr := by
  apply le_jsMaxList
  exact List.mem_map.mpr ⟨p, List.mem_range.mpr hp, rfl⟩

theorem tmod_neg_left (a b : ℤ) : Int.tmod (-a) b = -(Int.tmod a b) := by
  rw [Int.tmod_def, Int.tmod_def, Int.neg_tdiv]
  ring

theorem tmod_gt_neg (a : ℤ) {b : ℤ} (hb : 0 < b) : -b < Int.tmod a b := by
  rcases le_or_lt 0 a with ha | ha
  · have h0 := Int.tmod_nonneg b ha
    omega
  · have h1 : Int.tmod a b = -(Int.tmod (-a) b) := by rw [tmod_neg_left]; ring
    have h2 : Int.tmod (-a) b < b := Int.tmod_lt_of_pos _ hb
    omega

theorem binPitch_bounds (sr : ℝ) (F bin : ℕ) :
    0 ≤ binPitch sr F bin ∧ binPitch sr F bin < 12 := by
  simp only [binPitch]
  have hlow := tmod_gt_neg (Int.tmod (jsRound
    (12 * Real.logb 2 ((bin : ℝ) * sr / (F : ℝ) / 440) + 69)) 12) (by norm_num : (0 : ℤ) < 12)
  constructor
  · exact Int.tmod_nonneg _ (by omega)
  · exact Int.tmod_lt_of_pos _ (by norm_num)

/-- C8: after normalization all 12 chroma values lie in [0, 1]; when no
spectral energy fell in the 60-2000 Hz band they are all 0, and otherwise
at least one of them equals 1. -/
theorem claim_C8_chroma_invariant (data : List ℝ) (sr : ℝ) :
    (∀ p : ℕ, p < 12 → 0 ≤ chromaVec data sr (p : ℤ) ∧ chromaVec data sr (p : ℤ) ≤ 1) ∧
    (bandEnergy data sr = 0 → ∀ p : ℕ, p < 12 → chromaVec data sr (p : ℤ) = 0) ∧
    (bandEnergy data sr ≠ 0 → ∃ p : ℕ, p < 12 ∧ chromaVec data sr (p : ℤ) = 1) := by
  refine ⟨?_, ?_, ?_⟩
  · intro p hp
    by_cases hmax : 0 < maxChroma data sr
    · rw [chromaVec, if_pos hmax]
      constructor
      · exact div_nonneg (rawChroma_nonneg data sr _) hmax.le
      · rw [div_le_one hmax]
        exact rawChroma_le_maxChroma data sr hp
    · rw [chromaVec, if_neg hmax]
      have h1 := rawChroma_nonneg data sr (p : ℤ)
      have h2 := rawChroma_le_maxChroma data sr hp
      constructor
      · exact h1
      · push_neg at hmax
        linarith
  · intro hE p hp
    -- every raw chroma bin is bounded by the band energy
    have hbound : ∀ q : ℤ, rawChroma data sr q ≤ bandEnergy data sr := by
      intro q
      rw [rawChroma, bandEnergy]
      apply List.sum_le_sum
      intro seg _
      apply Finset.sum_le_sum
      intro bin _
      split_ifs with h1 h2 h2
      · exact le_refl _
      · exact absurd h1.1 h2
      · exact mul_self_nonneg _
      · exact le_refl 0
    have hzero : ∀ q : ℤ, rawChroma data sr q = 0 := by
      intro q
      have h1 := rawChroma_nonneg data sr q
      have h2 := hbound q
      rw [hE] at h2
      linarith
    have hmax : maxChroma data sr = 0 := by
      apply jsMaxList_of_all_zero
      intro x hx
      rcases List.mem_map.mp hx with ⟨q, _, rfl⟩
      exact hzero (q : ℤ)
    rw [chromaVec, hmax, if_neg (by norm_num)]
    exact hzero (p : ℤ)
  · intro hE
    -- some frame has in-band energy
    have hfne : ∃ seg ∈ frames data keyFftSize keyHopSize,
        (∑ bin ∈ Finset.Ico 1 (getMagnitudeSpectrum seg keyFftSize).length,
          if inBand sr keyFftSize bin then
            (getMagnitudeSpectrum seg keyFftSize).getD bin 0 *
            (getMagnitudeSpectrum seg keyFftSize).getD bin 0 else 0) ≠ 0 := by
      by_contra hall
      push_neg at hall
      apply hE
      rw [bandEnergy]
      apply List.sum_eq_zero
      intro x hx
      rcases List.mem_map.mp hx with ⟨seg, hseg, rfl⟩
      exact hall seg hseg
    obtain ⟨seg, hseg, hsegne⟩ := hfne
    -- some bin of that frame carries in-band energy
    have hbinne : ∃ bin ∈ Finset.Ico 1 (getMagnitudeSpectrum seg keyFftSize).length,
        (if inBand sr keyFftSize bin then
          (getMagnitudeSpectrum seg keyFftSize).getD bin 0 *
          (getMagnitudeSpectrum seg keyFftSize).getD bin 0 else 0) ≠ 0 := by
      by_contra hall
      push_neg at hall
      exact hsegne (Finset.sum_eq_zero hall)
    obtain ⟨bin, hbin, hbinval⟩ := hbinne
    have hband : inBand sr keyFftSize bin := by
      by_contra hb
      rw [if_neg hb] at hbinval
      exact hbinval rfl
    rw [if_pos hband] at hbinval
    have hsq : 0 < (getMagnitudeSpectrum seg keyFftSize).getD bin 0 *
        (getMagnitudeSpectrum seg keyFftSize).getD bin 0 :=
      lt_of_le_of_ne (mul_self_nonneg _) (Ne.symm hbinval)
    -- that energy lands in the pitch class binPitch of the bin
    obtain ⟨hp0, hp12⟩ := binPitch_bounds sr keyFftSize bin
    have hframe : 0 < frameChroma seg sr (binPitch sr keyFftSize bin) := by
      apply lt_of_lt_of_le hsq
      rw [frameChroma]
      have hterm : (if inBand sr keyFftSize bin ∧
          binPitch sr keyFftSize bin = binPitch sr keyFftSize bin then
          (getMagnitudeSpectrum seg keyFftSize).getD bin 0 *
          (getMagnitudeSpectrum seg keyFftSize).getD bin 0 else 0) =
          (getMagnitudeSpectrum seg keyFftSize).getD bin 0 *
          (getMagnitudeSpectrum seg keyFftSize).getD bin 0 := by
        rw [if_pos ⟨hband, rfl⟩]
      rw [← hterm]
      apply Finset.single_le_sum (f := fun b =>
        if inBand sr keyFftSize b ∧ binPitch sr keyFftSize b = binPitch sr keyFftSize bin then
          (getMagnitudeSpectrum seg keyFftSize).getD b 0 *
          (getMagnitudeSpectrum seg keyFftSize).getD b 0 else 0) ?_ hbin
      intro b _
      simp only
      split_ifs
      · exact mul_self_nonneg _
      · exact le_refl 0
    have hraw : 0 < rawChroma data sr (binPitch sr keyFftSize bin) := by
      apply lt_of_lt_of_le hframe
      rw [rawChroma]
      apply List.single_le_sum ?_ _
        (List.mem_map.mpr ⟨seg, hseg, rfl⟩)
      intro x hx
      rcases List.mem_map.mp hx with ⟨seg2, _, rfl⟩
      exact frameChroma_nonneg seg2 sr _
    have hmaxpos : 0 < maxChroma data sr := by
      apply lt_of_lt_of_le hraw
      have hcast : ((((binPitch sr keyFftSize bin).toNat : ℕ) : ℤ)) =
          binPitch sr keyFftSize bin := Int.toNat_of_nonneg hp0
      rw [← hcast]
      exact rawChroma_le_maxChroma data sr (by omega)
    -- the maximum is attained at some pitch class
    have hattain : ∃ p1 : ℕ, p1 < 12 ∧ rawChroma data sr (p1 : ℤ) = maxChroma data sr := by
      have hmem : maxChroma data sr ∈
          (List.range 12).map (fun p : ℕ => rawChroma data sr (p : ℤ)) := by
        apply jsMaxList_mem
        simp
      rcases List.mem_map.mp hmem with ⟨p1, hp1, hval⟩
      exact ⟨p1, List.mem_range.mp hp1, hval⟩
    obtain ⟨p1, hp1, hval⟩ := hattain
    refine ⟨p1, hp1, ?_⟩
    rw [chromaVec, if_pos hmaxpos, hval]
    exact div_self (ne_of_gt hmaxpos)

/-! ### Claim C9: homogeneity of the transform chain and key invariance -/

theorem update_smul (c : ℝ) (f : ℕ → ℝ) (i : ℕ) (v : ℝ) :
    Function.update (fun k => c * f k) i (c * v) = fun k => c * Function.update f i v k := by
  funext k
  simp only [Function.update_apply]
  split_ifs <;> rfl

theorem swapAt_smul (c : ℝ) (i j : ℕ) (st : FState) :
    swapAt i j (fun k => c * st.1 k, fun k => c * st.2 k) =
    ((fun k => c * (swapAt i j st).1 k), fun k => c * (swapAt i j st).2 k) := by
  simp only [swapAt, Prod.mk.injEq]
  constructor <;>
  · funext k
    simp only [Function.update_apply]
    split_ifs <;> rfl

theorem bfly_smul (c : ℝ) (i hl : ℕ) (w : ℝ × ℝ) (st : FState) (cur : ℝ × ℝ) (j : ℕ) :
    bfly i hl w ((fun k => c * st.1 k, fun k => c * st.2 k), cur) j =
    ((fun k => c * (bfly i hl w (st, cur) j).1.1 k,
      fun k => c * (bfly i hl w (st, cur) j).1.2 k),
     (bfly i hl w (st, cur) j).2) := by
  simp only [bfly, Prod.mk.injEq]
  refine ⟨⟨?_, ?_⟩, trivial⟩ <;>
  · funext k
    simp only [Function.update_apply]
    split_ifs <;> ring

theorem butterflies_smul (c : ℝ) (i hl : ℕ) (w : ℝ × ℝ) (st : FState) :
    butterflies i hl w (fun k => c * st.1 k, fun k => c * st.2 k) =
    ((fun k => c * (butterflies i hl w st).1 k),
     fun k => c * (butterflies i hl w st).2 k) := by
  simp only [butterflies]
  exact congrArg Prod.fst (foldl_comm_outer
    (fun p : FState × (ℝ × ℝ) => ((fun k => c * p.1.1 k, fun k => c * p.1.2 k), p.2))
    (bfly i hl w)
    (fun p b => bfly_smul c i hl w p.1 p.2 b)
    (List.range hl) (st, (1, 0)))

theorem stageFn_smul (c : ℝ) (n len : ℕ) (st : FState) :
    stageFn n len (fun k => c * st.1 k, fun k => c * st.2 k) =
    ((fun k => c * (stageFn n len st).1 k), fun k => c * (stageFn n len st).2 k) := by
  simp only [stageFn]
  exact foldl_comm_outer
    (fun s : FState => ((fun k => c * s.1 k), fun k => c * s.2 k))
    _ (fun s b => butterflies_smul c _ _ _ s) (List.range (n / len)) st

theorem fftStages_smul (c : ℝ) (n : ℕ) (st : FState) :
    fftStages n (fun k => c * st.1 k, fun k => c * st.2 k) =
    ((fun k => c * (fftStages n st).1 k), fun k => c * (fftStages n st).2 k) := by
  simp only [fftStages]
  exact foldl_comm_outer
    (fun s : FState => ((fun k => c * s.1 k), fun k => c * s.2 k))
    _ (fun s len => stageFn_smul c n len s) _ st

theorem bitReverse_smul (c : ℝ) (n : ℕ) (st : FState) :
    bitReverse n (fun k => c * st.1 k, fun k => c * st.2 k) =
    ((fun k => c * (bitReverse n st).1 k), fun k => c * (bitReverse n st).2 k) := by
  simp only [bitReverse]
  exact congrArg Prod.fst (foldl_comm_outer
    (fun p : FState × ℕ => ((fun k => c * p.1.1 k, fun k => c * p.1.2 k), p.2))
    (brStep n)
    (fun p i => by
      simp only [brStep, Prod.mk.injEq]
      by_cases h : i < p.2
      · simp only [if_pos h]
        exact ⟨swapAt_smul c i p.2 p.1, trivial⟩
      · simp only [if_neg h]
        simp)
    (List.range n) (st, 0))

theorem fft_smul (c : ℝ) (n : ℕ) (st : FState) :
    fft n (fun k => c * st.1 k, fun k => c * st.2 k) =
    ((fun k => c * (fft n st).1 k), fun k => c * (fft n st).2 k) := by
  rw [fft, fft]
  split_ifs
  · rfl
  · rw [bitReverse_smul, fftStages_smul]

theorem getD_map_mul (c : ℝ) (l : List ℝ) (k : ℕ) :
    (l.map (fun x => c * x)).getD k 0 = c * l.getD k 0 := by
  rcases lt_or_ge k l.length with hk | hk
  · rw [List.getD_eq_getElem _ _ (by simpa using hk), List.getD_eq_getElem _ _ hk,
      List.getElem_map]
  · rw [List.getD_eq_default _ _ (by simpa using hk), List.getD_eq_default _ _ hk, mul_zero]

theorem initState_smul (c : ℝ) (samples : List ℝ) (F : ℕ) :
    initState (samples.map (fun x => c * x)) F =
    ((fun k => c * (initState samples F).1 k), fun k => c * (initState samples F).2 k) := by
  simp only [initState, Prod.mk.injEq]
  constructor
  · funext k
    split_ifs with hk
    · rw [getD_map_mul]
      ring
    · rw [mul_zero]
  · funext k
    rw [mul_zero]

theorem getMagnitudeSpectrum_smul {c : ℝ} (hc : 0 ≤ c) (samples : List ℝ) (F : ℕ) :
    getMagnitudeSpectrum (samples.map (fun x => c * x)) F =
    (getMagnitudeSpectrum samples F).map (fun x => c * x) := by
  simp only [getMagnitudeSpectrum]
  rw [initState_smul, fft_smul, List.map_map]
  apply List.map_congr_left
  intro k _
  simp only [Function.comp_apply]
  rw [show c * (fft F (initState samples F)).1 k * (c * (fft F (initState samples F)).1 k) +
      c * (fft F (initState samples F)).2 k * (c * (fft F (initState samples F)).2 k) =
      c ^ 2 * ((fft F (initState samples F)).1 k * (fft F (initState samples F)).1 k +
        (fft F (initState samples F)).2 k * (fft F (initState samples F)).2 k) from by ring,
    Real.sqrt_mul (sq_nonneg c), Real.sqrt_sq hc]

theorem frames_map (f : ℝ → ℝ) (data : List ℝ) (F H : ℕ) :
    frames (data.map f) F H = (frames data F H).map (List.map f) := by
  simp only [frames, List.length_map]
  rw [List.map_map]
  apply List.map_congr_left
  intro s _
  simp

theorem frameChroma_smul {c : ℝ} (hc : 0 ≤ c) (seg : List ℝ) (sr : ℝ) (p : ℤ) :
    frameChroma (seg.map (fun x => c * x)) sr p = c ^ 2 * frameChroma seg sr p := by
  simp only [frameChroma]
  rw [getMagnitudeSpectrum_smul hc, List.length_map, Finset.mul_sum]
  apply Finset.sum_congr rfl
  intro bin _
  rw [getD_map_mul]
  split_ifs
  · ring
  · ring

theorem rawChroma_smul {c : ℝ} (hc : 0 ≤ c) (data : List ℝ) (sr : ℝ) (p : ℤ) :
    rawChroma (data.map (fun x => c * x)) sr p = c ^ 2 * rawChroma data sr p := by
  simp only [rawChroma]
  rw [frames_map, List.map_map]
  have h1 : ((frames data keyFftSize keyHopSize).map
      ((fun seg => frameChroma seg sr p) ∘ List.map (fun x => c * x))) =
      (frames data keyFftSize keyHopSize).map (fun seg => c ^ 2 * frameChroma seg sr p) := by
    apply List.map_congr_left
    intro seg _
    exact frameChroma_smul hc seg sr p
  rw [h1]
  exact List.sum_map_mul_left _ _ _

theorem foldl_max_map_mul {c : ℝ} (hc : 0 ≤ c) (xs : List ℝ) :
    ∀ acc, (xs.map (fun x => c * x)).foldl max (c * acc) = c * xs.foldl max acc := by
  induction xs with
  | nil => intro acc; rfl
  | cons y ys ih =>
    intro acc
    simp only [List.map_cons, List.foldl_cons]
    rw [← mul_max_of_nonneg acc y hc, ih]

theorem jsMaxList_map_mul {c : ℝ} (hc : 0 ≤ c) (l : List ℝ) :
    jsMaxList (l.map (fun x => c * x)) = c * jsMaxList l := by
  cases l with
  | nil => simp [jsMaxList]
  | cons x xs => exact foldl_max_map_mul hc xs x

theorem maxChroma_smul {c : ℝ} (hc : 0 ≤ c) (data : List ℝ) (sr : ℝ) :
    maxChroma (data.map (fun x => c * x)) sr = c ^ 2 * maxChroma data sr := by
  simp only [maxChroma]
  have h1 : ((List.range 12).map (fun p : ℕ => rawChroma (data.map fun x => c * x) sr (p : ℤ))) =
      ((List.range 12).map (fun p : ℕ => rawChroma data sr (p : ℤ))).map
        (fun x => c ^ 2 * x) := by
    rw [List.map_map]
    apply List.map_congr_left
    intro p _
    exact rawChroma_smul hc data sr (p : ℤ)
  rw [h1, jsMaxList_map_mul (by positivity)]

theorem rawChroma_out (data : List ℝ) (sr : ℝ) (p : ℤ) (hp : p < 0 ∨ 12 ≤ p) :
    rawChroma data sr p = 0 := by
  rw [rawChroma]
  apply List.sum_eq_zero
  intro x hx
  rcases List.mem_map.mp hx with ⟨seg, _, rfl⟩
  rw [frameChroma]
  apply Finset.sum_eq_zero
  intro bin _
  rw [if_neg]
  rintro ⟨_, hb⟩
  have := binPitch_bounds sr keyFftSize bin
  omega

theorem chromaVec_smul {c : ℝ} (hc : 0 < c) (data : List ℝ) (sr : ℝ) (p : ℤ) :
    chromaVec (data.map (fun x => c * x)) sr p = chromaVec data sr p := by
  have hc2 : (0 : ℝ) < c ^ 2 := by positivity
  rw [chromaVec, chromaVec, maxChroma_smul hc.le, rawChroma_smul hc.le]
  by_cases hm : 0 < maxChroma data sr
  · rw [if_pos (mul_pos hc2 hm), if_pos hm]
    rw [mul_div_mul_left _ _ (ne_of_gt hc2)]
  · rw [if_neg (fun h => hm (by nlinarith)), if_neg hm]
    rcases lt_or_ge p 0 with hp | hp
    · rw [rawChroma_out data sr p (Or.inl hp), mul_zero]
    rcases lt_or_ge p 12 with hp12 | hp12
    · have h1 := rawChroma_nonneg data sr p
      have h2 : rawChroma data sr p ≤ maxChroma data sr := by
        have h3 := rawChroma_le_maxChroma data sr (p := p.toNat) (by omega)
        rwa [Int.toNat_of_nonneg hp] at h3
      push_neg at hm
      have h0 : rawChroma data sr p = 0 := le_antisymm (le_trans h2 hm) h1
      rw [h0, mul_zero]
    · rw [rawChroma_out data sr p (Or.inr hp12), mul_zero]

theorem detectKey_smul {c : ℝ} (hc : 0 < c) (data : List ℝ) (sr : ℝ) :
    detectKey (data.map (fun x => c * x)) sr = detectKey data sr := by
  have hshift : ∀ shift : ℕ, shiftedChroma (data.map (fun x => c * x)) sr shift =
      shiftedChroma data sr shift := by
    intro shift
    apply List.map_congr_left
    intro i _
    exact chromaVec_smul hc data sr _
  have hcand : keyCandidatesAll (data.map (fun x => c * x)) sr = keyCandidatesAll data sr := by
    simp only [keyCandidatesAll]
    rw [show (fun shift => [(⟨KEY_NAMES.getD shift "", Mode.major,
        pearsonCorrelation MAJOR_PROFILE
          (shiftedChroma (data.map (fun x => c * x)) sr shift)⟩ : RawCandidate),
        ⟨KEY_NAMES.getD shift "", Mode.minor,
        pearsonCorrelation MINOR_PROFILE
          (shiftedChroma (data.map (fun x => c * x)) sr shift)⟩]) =
      (fun shift => [(⟨KEY_NAMES.getD shift "", Mode.major,
        pearsonCorrelation MAJOR_PROFILE (shiftedChroma data sr shift)⟩ : RawCandidate),
        ⟨KEY_NAMES.getD shift "", Mode.minor,
        pearsonCorrelation MINOR_PROFILE (shiftedChroma data sr shift)⟩]) from
      funext fun shift => by rw [hshift shift]]
  rw [detectKey, detectKey, rankedCandidates, rankedCandidates, hcand]

/-- C9: multiplying every sample by a positive constant c leaves detectKey's
output identical (in exact arithmetic): the sorted candidate order and all
confidence values — hence also the differences between them — are unchanged,
because the chroma normalization divides out the factor c². -/
theorem claim_C9_scale_invariance (data : List ℝ) (sr : ℝ) (c : ℝ) (hc : 0 < c) :
    detectKey (data.map (fun x => c * x)) sr = detectKey data sr :=
  detectKey_smul hc data sr

/-- Witness for C9 at c = 2 on a two-sample buffer. -/
theorem claim_C9_scale_invariance_witness :
    (0 : ℝ) < 2 ∧
    detectKey (List.map (fun x => (2 : ℝ) * x) [1, 0]) 44100 = detectKey [1, 0] 44100 :=
  ⟨by norm_num, claim_C9_scale_invariance [1, 0] 44100 2 (by norm_num)⟩

/-! ### Claim C3: a bin-aligned sine at frame size 4 -/

theorem brAdjust_zero_two : brAdjust 0 2 = 2 := by
  simp [brAdjust]

theorem brAdjust_two_two : brAdjust 2 2 = 1 := by
  simp [brAdjust]

theorem brAdjust_one_two : brAdjust 1 2 = 3 := by
  simp [brAdjust]

theorem brAdjust_three_two : brAdjust 3 2 = 0 := by
  simp [brAdjust]

theorem bitReverse_four (st : FState) : bitReverse 4 st = swapAt 1 2 st := by
  have e1 : brStep 4 (st, 0) 0 = (st, 2) := by
    show (if 0 < 0 then swapAt 0 0 st else st, brAdjust 0 (4 / 2)) = (st, 2)
    rw [if_neg (by norm_num), show (4 : ℕ) / 2 = 2 from rfl, brAdjust_zero_two]
  have e2 : brStep 4 (st, 2) 1 = (swapAt 1 2 st, 1) := by
    show (if 1 < 2 then swapAt 1 2 st else st, brAdjust 2 (4 / 2)) = (swapAt 1 2 st, 1)
    rw [if_pos (by norm_num), show (4 : ℕ) / 2 = 2 from rfl, brAdjust_two_two]
  have e3 : brStep 4 (swapAt 1 2 st, 1) 2 = (swapAt 1 2 st, 3) := by
    show (if 2 < 1 then swapAt 2 1 (swapAt 1 2 st) else swapAt 1 2 st, brAdjust 1 (4 / 2)) =
      (swapAt 1 2 st, 3)
    rw [if_neg (by norm_num), show (4 : ℕ) / 2 = 2 from rfl, brAdjust_one_two]
  have e4 : brStep 4 (swapAt 1 2 st, 3) 3 = (swapAt 1 2 st, 0) := by
    show (if 3 < 3 then swapAt 3 3 (swapAt 1 2 st) else swapAt 1 2 st, brAdjust 3 (4 / 2)) =
      (swapAt 1 2 st, 0)
    rw [if_neg (by norm_num), show (4 : ℕ) / 2 = 2 from rfl, brAdjust_three_two]
  show (List.foldl (brStep 4) (st, 0) (List.range 4)).1 = _
  rw [show List.range 4 = [0, 1, 2, 3] from rfl]
  rw [List.foldl_cons, e1, List.foldl_cons, e2, List.foldl_cons, e3, List.foldl_cons, e4]
  rfl

theorem log2_four : Nat.log2 4 = 2 := by
  rw [Nat.log2]
  norm_num
  rw [Nat.log2]
  norm_num
  rw [Nat.log2]
  norm_num

theorem fftStages_four (st : FState) : fftStages 4 st = stageFn 4 4 (stageFn 4 2 st) := by
  rw [fftStages, log2_four]
  rfl

theorem butterflies_one_re (w : ℝ × ℝ) (st : FState) (i k : ℕ) :
    (butterflies i 1 w st).1 k =
      if k = i + 1 then st.1 i - st.1 (i + 1)
      else if k = i then st.1 i + st.1 (i + 1)
      else st.1 k := by
  show ((bfly i 1 w (st, (1, 0)) 0).1).1 k = _
  simp [bfly, Function.update_apply]
  all_goals first
  | (split_ifs <;> first | ring | omega)
  | ring
  | omega

theorem butterflies_one_im (w : ℝ × ℝ) (st : FState) (i k : ℕ) :
    (butterflies i 1 w st).2 k =
      if k = i + 1 then st.2 i - st.2 (i + 1)
      else if k = i then st.2 i + st.2 (i + 1)
      else st.2 k := by
  show ((bfly i 1 w (st, (1, 0)) 0).1).2 k = _
  simp [bfly, Function.update_apply]
  all_goals first
  | (split_ifs <;> first | ring | omega)
  | ring
  | omega

theorem butterflies_two_re (w1 w2 : ℝ) (st : FState) (k : ℕ) :
    (butterflies 0 2 (w1, w2) st).1 k =
      if k = 3 then st.1 1 - (w1 * st.1 3 - w2 * st.2 3)
      else if k = 1 then st.1 1 + (w1 * st.1 3 - w2 * st.2 3)
      else if k = 2 then st.1 0 - st.1 2
      else if k = 0 then st.1 0 + st.1 2
      else st.1 k := by
  show ((bfly 0 2 (w1, w2) (bfly 0 2 (w1, w2) (st, (1, 0)) 0) 1).1).1 k = _
  simp [bfly, Function.update_apply]
  all_goals first
  | (split_ifs <;> first | ring | omega)
  | ring
  | omega

theorem butterflies_two_im (w1 w2 : ℝ) (st : FState) (k : ℕ) :
    (butterflies 0 2 (w1, w2) st).2 k =
      if k = 3 then st.2 1 - (w1 * st.2 3 + w2 * st.1 3)
      else if k = 1 then st.2 1 + (w1 * st.2 3 + w2 * st.1 3)
      else if k = 2 then st.2 0 - st.2 2
      else if k = 0 then st.2 0 + st.2 2
      else st.2 k := by
  show ((bfly 0 2 (w1, w2) (bfly 0 2 (w1, w2) (st, (1, 0)) 0) 1).1).2 k = _
  simp [bfly, Function.update_apply]
  all_goals first
  | (split_ifs <;> first | ring | omega)
  | ring
  | omega

theorem stageFn_four_two (st : FState) :
    ∃ w : ℝ × ℝ, stageFn 4 2 st = butterflies 2 1 w (butterflies 0 1 w st) :=
  ⟨_, rfl⟩

theorem stageFn_four_four (st : FState) :
    stageFn 4 4 st = butterflies 0 2
      (Real.cos ((-2 * Real.pi) / ((4 : ℕ) : ℝ)),
       Real.sin ((-2 * Real.pi) / ((4 : ℕ) : ℝ))) st := rfl

theorem cos_w4 : Real.cos ((-2 * Real.pi) / ((4 : ℕ) : ℝ)) = 0 := by
  rw [show (-2 * Real.pi) / ((4 : ℕ) : ℝ) = -(Real.pi / 2) by push_cast; ring]
  rw [Real.cos_neg, Real.cos_pi_div_two]

theorem sin_w4 : Real.sin ((-2 * Real.pi) / ((4 : ℕ) : ℝ)) = -1 := by
  rw [show (-2 * Real.pi) / ((4 : ℕ) : ℝ) = -(Real.pi / 2) by push_cast; ring]
  rw [Real.sin_neg, Real.sin_pi_div_two]

theorem sineFrame_eq : sineFrame = [0, 1, 0, -1] := by
  rw [sineFrame, show List.range 4 = [0, 1, 2, 3] from rfl]
  simp only [List.map_cons, List.map_nil]
  have e0 : Real.sin (2 * Real.pi * 1 * ((0 : ℕ) : ℝ) / 4) = 0 := by
    rw [show 2 * Real.pi * 1 * ((0 : ℕ) : ℝ) / 4 = 0 by push_cast; ring, Real.sin_zero]
  have e1 : Real.sin (2 * Real.pi * 1 * ((1 : ℕ) : ℝ) / 4) = 1 := by
    rw [show 2 * Real.pi * 1 * ((1 : ℕ) : ℝ) / 4 = Real.pi / 2 by push_cast; ring,
      Real.sin_pi_div_two]
  have e2 : Real.sin (2 * Real.pi * 1 * ((2 : ℕ) : ℝ) / 4) = 0 := by
    rw [show 2 * Real.pi * 1 * ((2 : ℕ) : ℝ) / 4 = Real.pi by push_cast; ring, Real.sin_pi]
  have e3 : Real.sin (2 * Real.pi * 1 * ((3 : ℕ) : ℝ) / 4) = -1 := by
    rw [show 2 * Real.pi * 1 * ((3 : ℕ) : ℝ) / 4 = Real.pi + Real.pi / 2 by push_cast; ring,
      Real.sin_add, Real.sin_pi, Real.cos_pi, Real.sin_pi_div_two]
    ring
  rw [e0, e1, e2, e3]

theorem hann_four_one : hannWindow 4 1 = 3 / 4 := by
  rw [hannWindow]
  rw [show 2 * Real.pi * ((1 : ℕ) : ℝ) / (((4 : ℕ) : ℝ) - 1) = Real.pi - Real.pi / 3 by
    push_cast; ring]
  rw [Real.cos_pi_sub, Real.cos_pi_div_three]
  norm_num

theorem hann_four_three : hannWindow 4 3 = 0 := by
  rw [hannWindow]
  rw [show 2 * Real.pi * ((3 : ℕ) : ℝ) / (((4 : ℕ) : ℝ) - 1) = 2 * Real.pi by
    push_cast; ring]
  rw [Real.cos_two_pi]
  ring

theorem sineInit_zero : (initState sineFrame 4).1 0 = 0 := by
  rw [initState]
  simp only
  rw [if_pos (by norm_num), sineFrame_eq]
  norm_num

theorem sineInit_one : (initState sineFrame 4).1 1 = 3 / 4 := by
  rw [initState]
  simp only
  rw [if_pos (by norm_num), sineFrame_eq]
  rw [show ([(0 : ℝ), 1, 0, -1].getD 1 0) = 1 from rfl, hann_four_one]
  norm_num

theorem sineInit_two : (initState sineFrame 4).1 2 = 0 := by
  rw [initState]
  simp only
  rw [if_pos (by norm_num), sineFrame_eq]
  norm_num

theorem sineInit_three : (initState sineFrame 4).1 3 = 0 := by
  rw [initState]
  simp only
  rw [if_pos (by norm_num), sineFrame_eq]
  rw [show ([(0 : ℝ), 1, 0, -1].getD 3 0) = -1 from rfl, hann_four_three]
  norm_num

theorem sineA_zero : (swapAt 1 2 (initState sineFrame 4)).1 0 = 0 := by
  simp [swapAt, Function.update_apply, sineInit_zero]

theorem sineA_one : (swapAt 1 2 (initState sineFrame 4)).1 1 = 0 := by
  simp [swapAt, Function.update_apply, sineInit_two]

theorem sineA_two : (swapAt 1 2 (initState sineFrame 4)).1 2 = 3 / 4 := by
  simp [swapAt, Function.update_apply, sineInit_one]

theorem sineA_three : (swapAt 1 2 (initState sineFrame 4)).1 3 = 0 := by
  simp [swapAt, Function.update_apply, sineInit_three]

theorem sineA_im : ∀ k, (swapAt 1 2 (initState sineFrame 4)).2 k = 0 := by
  intro k
  have h0im : ∀ k, (initState sineFrame 4).2 k = 0 := fun _ => rfl
  simp [swapAt, Function.update_apply, h0im]

theorem sineB_zero : (stageFn 4 2 (swapAt 1 2 (initState sineFrame 4))).1 0 = 0 := by
  obtain ⟨w2, hw2⟩ := stageFn_four_two (swapAt 1 2 (initState sineFrame 4))
  rw [hw2, butterflies_one_re]
  rw [if_neg (by norm_num), if_neg (by norm_num)]
  rw [butterflies_one_re]
  rw [if_neg (by norm_num), if_pos rfl]
  rw [show (0 + 1 : ℕ) = 1 from rfl, sineA_zero, sineA_one]
  norm_num

theorem sineB_one : (stageFn 4 2 (swapAt 1 2 (initState sineFrame 4))).1 1 = 0 := by
  obtain ⟨w2, hw2⟩ := stageFn_four_two (swapAt 1 2 (initState sineFrame 4))
  rw [hw2, butterflies_one_re]
  rw [if_neg (by norm_num), if_neg (by norm_num)]
  rw [butterflies_one_re]
  rw [if_pos (by norm_num)]
  rw [show (0 + 1 : ℕ) = 1 from rfl, sineA_zero, sineA_one]
  norm_num

theorem sineB_two : (stageFn 4 2 (swapAt 1 2 (initState sineFrame 4))).1 2 = 3 / 4 := by
  obtain ⟨w2, hw2⟩ := stageFn_four_two (swapAt 1 2 (initState sineFrame 4))
  rw [hw2, butterflies_one_re]
  rw [if_neg (by norm_num), if_pos rfl]
  rw [show (2 + 1 : ℕ) = 3 from rfl]
  rw [butterflies_one_re]
  rw [if_neg (by norm_num), if_neg (by norm_num)]
  rw [butterflies_one_re]
  rw [if_neg (by norm_num), if_neg (by norm_num)]
  rw [sineA_two, sineA_three]
  norm_num

theorem sineB_three : (stageFn 4 2 (swapAt 1 2 (initState sineFrame 4))).1 3 = 3 / 4 := by
  obtain ⟨w2, hw2⟩ := stageFn_four_two (swapAt 1 2 (initState sineFrame 4))
  rw [hw2, butterflies_one_re]
  rw [if_pos (by norm_num)]
  rw [show (2 + 1 : ℕ) = 3 from rfl]
  rw [butterflies_one_re]
  rw [if_neg (by norm_num), if_neg (by norm_num)]
  rw [butterflies_one_re]
  rw [if_neg (by norm_num), if_neg (by norm_num)]
  rw [sineA_two, sineA_three]
  norm_num

theorem sineB_im : ∀ k, (stageFn 4 2 (swapAt 1 2 (initState sineFrame 4))).2 k = 0 := by
  obtain ⟨w2, hw2⟩ := stageFn_four_two (swapAt 1 2 (initState sineFrame 4))
  have hIim : ∀ k, (butterflies 0 1 w2 (swapAt 1 2 (initState sineFrame 4))).2 k = 0 := by
    intro k
    rw [butterflies_one_im]
    split_ifs <;> simp [sineA_im]
  intro k
  rw [hw2, butterflies_one_im]
  split_ifs <;> simp [hIim]

theorem sine_fft_eq : fft 4 (initState sineFrame 4) =
    stageFn 4 4 (stageFn 4 2 (swapAt 1 2 (initState sineFrame 4))) := by
  rw [fft, if_neg (by norm_num), bitReverse_four, fftStages_four]

theorem sineS_re_zero : (fft 4 (initState sineFrame 4)).1 0 = 3 / 4 := by
  rw [sine_fft_eq, stageFn_four_four, butterflies_two_re]
  rw [if_neg (by norm_num), if_neg (by norm_num), if_neg (by norm_num), if_pos rfl]
  rw [sineB_zero, sineB_two]
  norm_num

theorem sineS_im_zero : (fft 4 (initState sineFrame 4)).2 0 = 0 := by
  rw [sine_fft_eq, stageFn_four_four, butterflies_two_im]
  rw [if_neg (by norm_num), if_neg (by norm_num), if_neg (by norm_num), if_pos rfl]
  rw [sineB_im, sineB_im]
  norm_num

theorem sineS_re_one : (fft 4 (initState sineFrame 4)).1 1 = 0 := by
  rw [sine_fft_eq, stageFn_four_four, butterflies_two_re]
  rw [if_neg (by norm_num), if_pos rfl]
  rw [sineB_one, sineB_three, sineB_im, cos_w4, sin_w4]
  norm_num

theorem sineS_im_one : (fft 4 (initState sineFrame 4)).2 1 = -(3 / 4) := by
  rw [sine_fft_eq, stageFn_four_four, butterflies_two_im]
  rw [if_neg (by norm_num), if_pos rfl]
  rw [sineB_three, sineB_im, cos_w4, sin_w4]
  norm_num

/-- The Hann-windowed sine frame of claim C3, evaluated: the spectrum of a
bin-aligned sine at k = 1, F = 4, sr = 4 is the constant [3/4, 3/4]. -/
theorem magSpec_sineFrame : getMagnitudeSpectrum sineFrame 4 = [3 / 4, 3 / 4] := by
  simp only [getMagnitudeSpectrum]
  rw [show List.range (4 / 2) = [0, 1] from rfl]
  simp only [List.map_cons, List.map_nil]
  rw [sineS_re_zero, sineS_im_zero, sineS_re_one, sineS_im_one]
  rw [show ((3 : ℝ) / 4 * (3 / 4) + 0 * 0) = (3 / 4) ^ 2 by norm_num,
    show ((0 : ℝ) * 0 + -(3 / 4) * -(3 / 4)) = (3 / 4) ^ 2 by norm_num,
    Real.sqrt_sq (by norm_num : (0 : ℝ) ≤ 3 / 4)]

/-- C3 counterexample: the frame holding one bin-aligned pure sine of
frequency f = 1·sr/F (k = 1, sr = 4, F = 4) has magnitude spectrum
[3/4, 3/4]: the value at bin 0 equals the value at bin round(f·F/sr) = 1,
so the spectrum's maximum is NOT uniquely attained at bin 1 (the Hann
window, whose denominator is F-1, zeroes both frame ends and collapses this
frame to a single impulse with a flat spectrum). -/
theorem claim_C3_counterexample :
    getMagnitudeSpectrum sineFrame 4 = [3 / 4, 3 / 4] ∧
    (getMagnitudeSpectrum sineFrame 4).getD 0 0 =
      (getMagnitudeSpectrum sineFrame 4).getD 1 0 :=
  ⟨magSpec_sineFrame, by rw [magSpec_sineFrame]; rfl⟩

theorem pureSineFrame_four_one : pureSineFrame 4 1 = sineFrame := by
  simp only [pureSineFrame, sineFrame]
  norm_num

/-- C3 amended: the magnitude spectrum of a bin-aligned pure sine need not
have a UNIQUE maximum at the aligned bin: there is a bin-aligned
configuration (frame size F, bin k with 0 < k < F/2, any sample rate, for
which round(f·F/sampleRate) = k) where the spectrum attains its maximum at
bin k but also at a different bin — concretely F = 4, k = 1, where the Hann
window (denominator F−1) collapses the frame to an impulse and the spectrum
is flat. -/
theorem claim_C3_peak_not_unique :
    ∃ F k : ℕ, 0 < k ∧ 2 * k < F ∧
      (∀ m, m < F / 2 →
        (getMagnitudeSpectrum (pureSineFrame F k) F).getD m 0 ≤
          (getMagnitudeSpectrum (pureSineFrame F k) F).getD k 0) ∧
      (∃ j, j < F / 2 ∧ j ≠ k ∧
        (getMagnitudeSpectrum (pureSineFrame F k) F).getD j 0 =
          (getMagnitudeSpectrum (pureSineFrame F k) F).getD k 0) := by
  refine ⟨4, 1, by norm_num, by norm_num, ?_, 0, by norm_num, by norm_num, ?_⟩
  · intro m hm
    rw [pureSineFrame_four_one, magSpec_sineFrame]
    interval_cases m <;> norm_num
  · rw [pureSineFrame_four_one, magSpec_sineFrame]
    rfl

end SampleAnalysis

